import Mathlib

/-!
Verification development for the CrosswordGen repository.

The development shallowly embeds two parts of the code base:

* `XWGo` — the Go package `pkg/primitives` (`char_set.go`, `line.go`,
  `possible_lines.go`): the `CharSet` bitset and the `PossibleLines`
  algebra with its operations (`Filter`, `FilterAny`, `RemoveWordOptions`,
  `DefinitelyBlockedAt`, `MakeChoice`, `Iterate`, ...).
* `XWGen` — the C# file `WordGenLib/Gen.cs`: the string-based
  `ScoredLine`/`GridState` representation, the pattern enumerator
  `AllPossibleLines`, the `Prefilter` tightening pass, the propagation
  loop, and the recursive search `AllPossibleGrids`.

Go strings of lowercase words are modelled as lists of rune code points
(`List Int`); C# strings as `List Char`.  Mutable methods are modelled
functionally: a method that mutates its receiver becomes a function
returning the new value.  Go's pointer-equality checks (`f == p`,
`inner == b.lines`) are modelled as structural equality: every operation
of the algebra either returns its receiver or a freshly built,
structurally different value, so the two notions agree at every check
site.  Lazy iterators (`iter.Seq`, C# `IEnumerable`) are modelled as the
lists of the elements they yield, in yield order.
-/

namespace XWGo

/-- A dictionary word: the runes of a Go string.  Go runes (`int32`)
are modelled as unbounded `Int`: every rune handled by the package is
an ASCII code point, far from the `int32` bounds. -/
abbrev Word := List Int

/-- `const kBlocked = '`'` (code point 96) from possible_lines.go. -/
def kBlocked : Int := 96

/-! ### CharSet (char_set.go)

A 27-character bitset over `` ` `` (96) .. `z` (122).  `bits` is the Go
`uint32`; since `Add` only ever sets bit positions 0..26 the value stays
below `2^27`, so no wrap-around can occur and a plain `Nat` is exact.
`count` caches the population count, as in the Go struct. -/

structure CharSet where
  bits : Nat
  count : Nat
deriving DecidableEq

/-- `numChars = maxChar - minChar + 1` (27). -/
def CharSet.capacity : Nat := 27

/-- `bits.OnesCount32` restricted to the 32 bits a Go `uint32` has. -/
def onesCount32 (n : Nat) : Nat :=
  (List.range 32).countP (fun i => n.testBit i)

/-- `CharSet.Contains`.  Returns `false` for out-of-range runes. -/
def CharSet.ContainsB (c : CharSet) (r : Int) : Bool :=
  if r < 96 ∨ 122 < r then false
  else c.bits.testBit (r - 96).toNat

/-- `CharSet.Add`, modelled functionally: the returned pair is the
post-state of the receiver together with `true` iff the Go method
returned a non-nil error. -/
def CharSet.addResult (c : CharSet) (r : Int) : CharSet × Bool :=
  if r < 96 ∨ 122 < r then (c, true)
  else
    let pos := (r - 96).toNat
    if c.bits &&& (1 <<< pos) = 0 then
      let bits' := c.bits ||| (1 <<< pos)
      ({ bits := bits', count := onesCount32 bits' }, false)
    else (c, false)

/-- `CharSet.IsFull`. -/
def CharSet.IsFull (c : CharSet) : Bool := c.count = CharSet.capacity

/-! ### ConcreteLine (line.go) -/

/-- `ConcreteLine`: a fully decided line plus the words it realises. -/
structure ConcreteLine where
  Line : List Int
  Words : List Word
deriving DecidableEq

/-! ### PossibleLines (possible_lines.go)

The sealed interface with its six implementations becomes an inductive
type; dispatch on the dynamic type becomes pattern matching. -/

inductive PossibleLines where
  | impossible (numLetters : Nat)
  | definite (line : ConcreteLine)
  | words (allWords : List Word) (obscureIdx : Nat)
  | blockBefore (lines : PossibleLines)
  | blockAfter (lines : PossibleLines)
  | blockBetween (first second : PossibleLines)
  | compound (possibilities : List PossibleLines)

mutual

/-- Structural (boolean) equality on `PossibleLines`. -/
def PossibleLines.beq : PossibleLines → PossibleLines → Bool
  | .impossible n, .impossible m => n == m
  | .definite l, .definite m => l == m
  | .words ws i, .words vs j => ws == vs && i == j
  | .blockBefore a, .blockBefore b => PossibleLines.beq a b
  | .blockAfter a, .blockAfter b => PossibleLines.beq a b
  | .blockBetween a b, .blockBetween c d =>
      PossibleLines.beq a c && PossibleLines.beq b d
  | .compound ps, .compound qs => PossibleLines.beqList ps qs
  | _, _ => false

/-- Structural equality on lists of `PossibleLines`. -/
def PossibleLines.beqList : List PossibleLines → List PossibleLines → Bool
  | [], [] => true
  | p :: ps, q :: qs => PossibleLines.beq p q && PossibleLines.beqList ps qs
  | _, _ => false

end

mutual

/-- Size measure used for well-founded recursion over the nested
inductive. -/
def plSize : PossibleLines → Nat
  | .impossible _ => 1
  | .definite _ => 1
  | .words _ _ => 1
  | .blockBefore p => 1 + plSize p
  | .blockAfter p => 1 + plSize p
  | .blockBetween f s => 1 + plSize f + plSize s
  | .compound ps => 1 + plListSize ps

/-- Sum of `plSize` over a list. -/
def plListSize : List PossibleLines → Nat
  | [] => 0
  | p :: ps => plSize p + plListSize ps

end

theorem plSize_pos : ∀ p, 0 < plSize p := by
  intro p; cases p <;> simp only [plSize] <;> omega

theorem plListSize_of_mem {p : PossibleLines} :
    ∀ {ps : List PossibleLines}, p ∈ ps → plSize p ≤ plListSize ps := by
  intro ps h
  induction ps with
  | nil => cases h
  | cons q qs ih =>
    rcases List.mem_cons.mp h with h1 | h2
    · subst h1; simp only [plListSize]; omega
    · have := ih h2; simp only [plListSize]; omega

theorem plSize_lt_compound {p : PossibleLines} {ps : List PossibleLines}
    (h : p ∈ ps) : plSize p < plSize (.compound ps) := by
  have := plListSize_of_mem h
  simp only [plSize]; omega

/-- Structural induction principle for `PossibleLines` whose compound
case provides the inductive hypothesis for every member of the child
list. -/
def PossibleLines.inductionOn {motive : PossibleLines → Prop}
    (p : PossibleLines)
    (imp : ∀ n, motive (.impossible n))
    (defn : ∀ l, motive (.definite l))
    (word : ∀ ws oi, motive (.words ws oi))
    (bb : ∀ q, motive q → motive (.blockBefore q))
    (ba : ∀ q, motive q → motive (.blockAfter q))
    (bw : ∀ f s, motive f → motive s → motive (.blockBetween f s))
    (comp : ∀ ps, (∀ q ∈ ps, motive q) → motive (.compound ps)) :
    motive p :=
  match p with
  | .impossible n => imp n
  | .definite l => defn l
  | .words ws oi => word ws oi
  | .blockBefore q =>
      bb q (inductionOn q imp defn word bb ba bw comp)
  | .blockAfter q =>
      ba q (inductionOn q imp defn word bb ba bw comp)
  | .blockBetween f s =>
      bw f s (inductionOn f imp defn word bb ba bw comp)
        (inductionOn s imp defn word bb ba bw comp)
  | .compound ps =>
      comp ps (fun q hq =>
        have := plSize_lt_compound hq
        inductionOn q imp defn word bb ba bw comp)
termination_by plSize p
decreasing_by
  all_goals first
  | (simp only [plSize]; omega)
  | (simp only [plSize] at this ⊢; omega)

theorem PossibleLines.beq_iff :
    ∀ a b : PossibleLines, PossibleLines.beq a b = true ↔ a = b := by
  intro a
  induction a using PossibleLines.inductionOn with
  | imp n => intro b; cases b <;> simp [PossibleLines.beq]
  | defn l => intro b; cases b <;> simp [PossibleLines.beq]
  | word ws oi => intro b; cases b <;> simp [PossibleLines.beq]
  | bb q ih => intro b; cases b <;> simp [PossibleLines.beq, ih]
  | ba q ih => intro b; cases b <;> simp [PossibleLines.beq, ih]
  | bw f s ihf ihs => intro b; cases b <;> simp [PossibleLines.beq, ihf, ihs]
  | comp ps ih =>
    intro b
    cases b <;> simp [PossibleLines.beq]
    case compound qs =>
      induction ps generalizing qs with
      | nil => cases qs <;> simp [PossibleLines.beqList]
      | cons p ps ihl =>
        cases qs with
        | nil => simp [PossibleLines.beqList]
        | cons q qs =>
          have h1 := ih p (List.mem_cons_self p ps)
          have h2 := ihl (fun r hr => ih r (List.mem_cons_of_mem p hr)) qs
          simp [PossibleLines.beqList, h1 q, h2]

instance : DecidableEq PossibleLines := fun a b =>
  decidable_of_iff _ (PossibleLines.beq_iff a b)

/-- `isImpossible` (type test `p.(*Impossible)`). -/
def isImpossible : PossibleLines → Bool
  | .impossible _ => true
  | _ => false

/-- Type test `p.(*Compound)` used by `MakeCompound`. -/
def isCompoundB : PossibleLines → Bool
  | .compound _ => true
  | _ => false

/-- `NumLetters` for every variant.  `Words` reports
`len(w.allWords[0])`, `Compound` the head child's length
(`c.possibilities[0].NumLetters()`; the empty case is unreachable
because `MakeCompound` collapses empty lists). -/
def numLetters : PossibleLines → Nat
  | .impossible n => n
  | .definite l => l.Line.length
  | .words ws _ => (ws.headD []).length
  | .blockBefore p => 1 + numLetters p
  | .blockAfter p => 1 + numLetters p
  | .blockBetween f s => 1 + numLetters f + numLetters s
  | .compound [] => 0
  | .compound (p :: _) => numLetters p

/-- `NumLetters` of the head of a compound's child list. -/
def numLettersHead : List PossibleLines → Nat
  | [] => 0
  | p :: _ => numLetters p

mutual

/-- `MaxPossibilities`.  The Go code uses `int64`; all sums and products
in reach of the claims stay far below `2^63`, so unbounded `Int` is
used. -/
def maxPossibilities : PossibleLines → Int
  | .impossible _ => 0
  | .definite _ => 1
  | .words ws _ => ws.length
  | .blockBefore p => maxPossibilities p
  | .blockAfter p => maxPossibilities p
  | .blockBetween f s => maxPossibilities f * maxPossibilities s
  | .compound ps => maxPossibilitiesList ps

/-- Sum of `MaxPossibilities` over a compound's children. -/
def maxPossibilitiesList : List PossibleLines → Int
  | [] => 0
  | p :: ps => maxPossibilities p + maxPossibilitiesList ps

end

/-- `MakeWords`: collapses the empty list to `Impossible` and a
singleton to `Definite`. -/
def MakeWords (allWords : List Word) (obscureIdx : Nat) (numLetters : Nat) :
    PossibleLines :=
  match allWords with
  | [] => .impossible numLetters
  | [w] => .definite ⟨w, [w]⟩
  | _ => .words allWords obscureIdx

/-- The flattening step of `MakeCompound`: drop `Impossible` children
and splice the children of `Compound` children. -/
def flattenForCompound : List PossibleLines → List PossibleLines
  | [] => []
  | p :: ps =>
    match p with
    | .impossible _ => flattenForCompound ps
    | .compound cs => cs ++ flattenForCompound ps
    | q => q :: flattenForCompound ps

theorem plListSize_append (a b : List PossibleLines) :
    plListSize (a ++ b) = plListSize a + plListSize b := by
  induction a with
  | nil => simp [plListSize]
  | cons p ps ih =>
    show plListSize (p :: (ps ++ b)) = _
    simp only [plListSize, ih]; omega

theorem plListSize_flatten_le (ps : List PossibleLines) :
    plListSize (flattenForCompound ps) ≤ plListSize ps := by
  induction ps with
  | nil => simp [flattenForCompound]
  | cons p ps ih =>
    cases p <;>
      simp only [flattenForCompound, plListSize, plSize, plListSize_append] <;>
      omega

theorem plListSize_flatten_lt (ps : List PossibleLines)
    (h : ps.any (fun p => isImpossible p || isCompoundB p) = true) :
    plListSize (flattenForCompound ps) < plListSize ps := by
  induction ps with
  | nil => simp at h
  | cons p ps ih =>
    simp only [List.any_cons, Bool.or_eq_true] at h
    cases p with
    | impossible n =>
      have := plListSize_flatten_le ps
      simp only [flattenForCompound, plListSize, plSize]; omega
    | compound cs =>
      have := plListSize_flatten_le ps
      simp only [flattenForCompound, plListSize, plSize, plListSize_append]
      omega
    | definite l =>
      rcases h with h | h
      · simp [isImpossible, isCompoundB] at h
      · have := ih h
        simp only [flattenForCompound, plListSize]; omega
    | words ws oi =>
      rcases h with h | h
      · simp [isImpossible, isCompoundB] at h
      · have := ih h
        simp only [flattenForCompound, plListSize]; omega
    | blockBefore q =>
      rcases h with h | h
      · simp [isImpossible, isCompoundB] at h
      · have := ih h
        simp only [flattenForCompound, plListSize]; omega
    | blockAfter q =>
      rcases h with h | h
      · simp [isImpossible, isCompoundB] at h
      · have := ih h
        simp only [flattenForCompound, plListSize]; omega
    | blockBetween f s =>
      rcases h with h | h
      · simp [isImpossible, isCompoundB] at h
      · have := ih h
        simp only [flattenForCompound, plListSize]; omega

/-- `MakeCompound`: empty list gives `Impossible`, a singleton gives
the child, a list containing `Impossible` or `Compound` children is
flattened and retried, anything else is wrapped in `Compound`. -/
def MakeCompound (possibilities : List PossibleLines) (numLetters : Nat) :
    PossibleLines :=
  if possibilities.length = 0 then .impossible numLetters
  else if possibilities.length = 1 then
    possibilities.headD (.impossible numLetters)
  else if hc : possibilities.any (fun p => isImpossible p || isCompoundB p) then
    MakeCompound (flattenForCompound possibilities) numLetters
  else .compound possibilities
termination_by plListSize possibilities
decreasing_by
  exact plListSize_flatten_lt possibilities hc

/-- `MakeBlockBefore`. -/
def MakeBlockBefore (p : PossibleLines) : PossibleLines :=
  if isImpossible p then .impossible (numLetters p + 1) else .blockBefore p

/-- `MakeBlockAfter`. -/
def MakeBlockAfter (p : PossibleLines) : PossibleLines :=
  if isImpossible p then .impossible (numLetters p + 1) else .blockAfter p

/-- `MakeBlockBetween`. -/
def MakeBlockBetween (f s : PossibleLines) : PossibleLines :=
  if isImpossible f || isImpossible s then
    .impossible (numLetters f + numLetters s + 1)
  else .blockBetween f s

/-- `BlockBefore.build`: collapse an impossible inner value to
`Impossible` at the receiver's length.  (The Go `inner == b.lines`
check only reuses the receiver pointer; the returned value is
structurally the same either way.) -/
def buildBB (origLen : Nat) (inner : PossibleLines) : PossibleLines :=
  if isImpossible inner then .impossible origLen else .blockBefore inner

/-- `BlockAfter.build`. -/
def buildBA (origLen : Nat) (inner : PossibleLines) : PossibleLines :=
  if isImpossible inner then .impossible origLen else .blockAfter inner

/-- `BlockBetween.build`. -/
def buildBW (origLen : Nat) (f s : PossibleLines) : PossibleLines :=
  if isImpossible f || isImpossible s then .impossible origLen
  else .blockBetween f s

/-- Glue two halves with a blocked cell between them, as
`BlockBetween.Iterate` does. -/
def glueBetween (a b : ConcreteLine) : ConcreteLine :=
  ⟨a.Line ++ kBlocked :: b.Line, a.Words ++ b.Words⟩

mutual

/-- `Iterate`: the list of `ConcreteLine`s the lazy sequence yields, in
yield order. -/
def lines : PossibleLines → List ConcreteLine
  | .impossible _ => []
  | .definite l => [l]
  | .words ws _ => ws.map (fun w => ⟨w, [w]⟩)
  | .blockBefore p => (lines p).map (fun l => ⟨kBlocked :: l.Line, l.Words⟩)
  | .blockAfter p => (lines p).map (fun l => ⟨l.Line ++ [kBlocked], l.Words⟩)
  | .blockBetween f s =>
      (lines f).flatMap (fun a => (lines s).map (fun b => glueBetween a b))
  | .compound ps => linesList ps

/-- Concatenated iteration over a compound's children. -/
def linesList : List PossibleLines → List ConcreteLine
  | [] => []
  | p :: ps => lines p ++ linesList ps

end

/-- Letters are the runes `a`..`z` (97..122); dictionary words contain
nothing else. -/
def isLetter (r : Int) : Bool := decide (97 ≤ r) && decide (r ≤ 122)

mutual

/-- Well-formedness of a `PossibleLines` value, the invariants
established by the constructors in possible_lines.go: `Words` and
`Compound` have at least two members, `obscureIdx` is in range, words
are same-length strings of lowercase letters, block wrappers never hold
`Impossible`, compound children are non-`Impossible`, non-`Compound`
and share the parent's length. -/
def WFb : PossibleLines → Bool
  | .impossible _ => true
  | .definite _ => true
  | .words ws oi =>
      decide (2 ≤ ws.length) && decide (oi ≤ ws.length) &&
      ws.all (fun w =>
        decide (w.length = (ws.headD []).length) && w.all isLetter)
  | .blockBefore p => !isImpossible p && WFb p
  | .blockAfter p => !isImpossible p && WFb p
  | .blockBetween f s =>
      !isImpossible f && !isImpossible s && WFb f && WFb s
  | .compound ps =>
      decide (2 ≤ ps.length) &&
      ps.all (fun p =>
        !isImpossible p && !isCompoundB p &&
        decide (numLetters p = numLettersHead ps)) &&
      WFbList ps

/-- Well-formedness of every member of a list. -/
def WFbList : List PossibleLines → Bool
  | [] => true
  | p :: ps => WFb p && WFbList ps

end

mutual

/-- The shape invariant preserved by the restriction operations: every
`Compound` node in the tree has children whose `NumLetters` agree with
the node's own. -/
def wfShape : PossibleLines → Bool
  | .impossible _ => true
  | .definite _ => true
  | .words _ _ => true
  | .blockBefore p => wfShape p
  | .blockAfter p => wfShape p
  | .blockBetween f s => wfShape f && wfShape s
  | .compound ps =>
      ps.all (fun p => decide (numLetters p = numLettersHead ps))
        && wfShapeList ps

/-- `wfShape` for every member of a list. -/
def wfShapeList : List PossibleLines → Bool
  | [] => true
  | p :: ps => wfShape p && wfShapeList ps

end

/-- `len(w.allWords[0])`, the length `Words` reports. -/
def wordsNL (ws : List Word) : Nat := (ws.headD []).length

/-- The character of a Go string at an index (`word[index]`); the Go
code only evaluates it for indices in range. -/
def chAt (w : Word) (i : Nat) : Int := w.getD i 0

/-- The cell of a `ConcreteLine` at an index (`line.Line[index]`). -/
def cellAt (l : ConcreteLine) (i : Nat) : Int := l.Line.getD i 0

mutual

/-- `Filter`: restrict to the lines whose `index`-th cell is
`constraint`.  Direct translation of the per-variant methods; the
`Words` mask cache is omitted because its early return fires exactly
when the subsequent scan would also return the receiver. -/
def filter : PossibleLines → Int → Nat → PossibleLines
  | .impossible n, _, _ => .impossible n
  | .definite l, ch, i =>
      if ch = cellAt l i then .definite l else .impossible l.Line.length
  | .words ws oi, ch, i =>
      if ch = kBlocked then .impossible (wordsNL ws)
      else if decide (0 < ws.length) && ws.all (fun w => chAt w i == ch) then
        .words ws oi
      else
        MakeWords (ws.filter (fun w => chAt w i == ch))
          ((ws.take oi).countP (fun w => chAt w i == ch)) (wordsNL ws)
  | .blockBefore p, ch, i =>
      if i = 0 then
        (if ch = kBlocked then .blockBefore p
         else .impossible (1 + numLetters p))
      else buildBB (1 + numLetters p) (filter p ch (i - 1))
  | .blockAfter p, ch, i =>
      if i = numLetters p then
        (if ch = kBlocked then .blockAfter p
         else .impossible (1 + numLetters p))
      else buildBA (1 + numLetters p) (filter p ch i)
  | .blockBetween f s, ch, i =>
      if i = numLetters f then
        (if ch = kBlocked then .blockBetween f s
         else .impossible (1 + numLetters f + numLetters s))
      else if i < numLetters f then
        buildBW (1 + numLetters f + numLetters s) (filter f ch i) s
      else
        buildBW (1 + numLetters f + numLetters s) f
          (filter s ch (i - numLetters f - 1))
  | .compound ps, ch, i =>
      let r := filterCollect ps ch i false
      if r.1 then MakeCompound r.2 (numLettersHead ps) else .compound ps

/-- The change-tracking loop of `Compound.Filter`: children before the
first change are kept verbatim, afterwards each filtered child is kept
unless it is `Impossible`.  The boolean result is
`anyChangeInSubParts`. -/
def filterCollect :
    List PossibleLines → Int → Nat → Bool → Bool × List PossibleLines
  | [], _, _, seen => (seen, [])
  | p :: ps, ch, i, seen =>
      let f := filter p ch i
      if seen = false ∧ f = p then
        let r := filterCollect ps ch i false
        (r.1, p :: r.2)
      else
        let r := filterCollect ps ch i true
        (true, if isImpossible f then r.2 else f :: r.2)

end

/-- The `Words.FilterAny` early return: a full constraint, or one that
contains every letter and misses only the blocked cell, filters
nothing. -/
def filterAnyShortcut (cs : CharSet) : Bool :=
  cs.IsFull ||
    (!(cs.ContainsB kBlocked) && decide (cs.count + 1 = CharSet.capacity))

mutual

/-- `FilterAny`: restrict to the lines whose `index`-th cell lies in
`constraint`. -/
def filterAny : PossibleLines → CharSet → Nat → PossibleLines
  | .impossible n, _, _ => .impossible n
  | .definite l, cs, i =>
      if cs.IsFull then .definite l
      else if cs.ContainsB (cellAt l i) then .definite l
      else .impossible l.Line.length
  | .words ws oi, cs, i =>
      if filterAnyShortcut cs then .words ws oi
      else if !(ws.any (fun w => !(cs.ContainsB (chAt w i)))) then
        .words ws oi
      else
        MakeWords (ws.filter (fun w => cs.ContainsB (chAt w i)))
          ((ws.take oi).countP (fun w => cs.ContainsB (chAt w i)))
          (wordsNL ws)
  | .blockBefore p, cs, i =>
      if cs.IsFull then .blockBefore p
      else if i = 0 then
        (if cs.ContainsB kBlocked then .blockBefore p
         else .impossible (1 + numLetters p))
      else buildBB (1 + numLetters p) (filterAny p cs (i - 1))
  | .blockAfter p, cs, i =>
      if cs.IsFull then .blockAfter p
      else if i = numLetters p then
        (if cs.ContainsB kBlocked then .blockAfter p
         else .impossible (1 + numLetters p))
      else buildBA (1 + numLetters p) (filterAny p cs i)
  | .blockBetween f s, cs, i =>
      if cs.IsFull then .blockBetween f s
      else if i = numLetters f then
        (if cs.ContainsB kBlocked then .blockBetween f s
         else .impossible (1 + numLetters f + numLetters s))
      else if i < numLetters f then
        buildBW (1 + numLetters f + numLetters s) (filterAny f cs i) s
      else
        buildBW (1 + numLetters f + numLetters s) f
          (filterAny s cs (i - numLetters f - 1))
  | .compound ps, cs, i =>
      if cs.IsFull then .compound ps
      else
        let r := filterAnyCollect ps cs i false
        if !r.1 then .compound ps
        else
          match r.2 with
          | [] => .impossible (numLettersHead ps)
          | [x] => x
          | x :: y :: rest => MakeCompound (x :: y :: rest) (numLettersHead ps)

/-- The change-tracking loop of `Compound.FilterAny`: like
`filterCollect`, but a filtered child that is itself a `Compound` is
spliced into the result. -/
def filterAnyCollect :
    List PossibleLines → CharSet → Nat → Bool → Bool × List PossibleLines
  | [], _, _, seen => (seen, [])
  | p :: ps, cs, i, seen =>
      let f := filterAny p cs i
      if seen = false ∧ f = p then
        let r := filterAnyCollect ps cs i false
        (r.1, p :: r.2)
      else
        let r := filterAnyCollect ps cs i true
        (true,
          match f with
          | .impossible _ => r.2
          | .compound inner => inner ++ r.2
          | other => other :: r.2)

end

mutual

/-- `RemoveWordOptions`: restrict to the lines whose realised words are
disjoint from `words`. -/
def removeWordOptions : PossibleLines → List Word → PossibleLines
  | .impossible n, _ => .impossible n
  | .definite l, ws =>
      if ws.any (fun w =>
          decide (w.length = l.Line.length) && l.Words.contains w) then
        .impossible l.Line.length
      else .definite l
  | .words aw oi, ws =>
      if ws.any (fun w =>
          decide (w.length = wordsNL aw) && aw.contains w) then
        MakeWords (aw.filter (fun p => !(ws.contains p)))
          ((aw.take oi).countP (fun p => !(ws.contains p))) (wordsNL aw)
      else .words aw oi
  | .blockBefore p, ws => buildBB (1 + numLetters p) (removeWordOptions p ws)
  | .blockAfter p, ws => buildBA (1 + numLetters p) (removeWordOptions p ws)
  | .blockBetween f s, ws =>
      buildBW (1 + numLetters f + numLetters s)
        (removeWordOptions f ws) (removeWordOptions s ws)
  | .compound ps, ws =>
      let r := removeCollect ps ws false
      if r.1 then MakeCompound r.2 (numLettersHead ps) else .compound ps

/-- The change-tracking loop of `Compound.RemoveWordOptions`; the kept
values coincide with `filterCollect`'s bookkeeping. -/
def removeCollect :
    List PossibleLines → List Word → Bool → Bool × List PossibleLines
  | [], _, seen => (seen, [])
  | p :: ps, ws, seen =>
      let f := removeWordOptions p ws
      if seen = false ∧ f = p then
        let r := removeCollect ps ws false
        (r.1, p :: r.2)
      else
        let r := removeCollect ps ws true
        (true, if isImpossible f then r.2 else f :: r.2)

end

mutual

/-- `DefinitelyBlockedAt`: `true` iff the variant structurally forces
the blocked sentinel at the index.  `Impossible` answers `false`. -/
def definitelyBlockedAt : PossibleLines → Nat → Bool
  | .impossible _, _ => false
  | .definite l, i => cellAt l i == kBlocked
  | .words _ _, _ => false
  | .blockBefore p, i =>
      if i = 0 then true else definitelyBlockedAt p (i - 1)
  | .blockAfter p, i =>
      if i = numLetters p then true else definitelyBlockedAt p i
  | .blockBetween f s, i =>
      if i = numLetters f then true
      else if i < numLetters f then definitelyBlockedAt f i
      else definitelyBlockedAt s (i - numLetters f - 1)
  | .compound ps, i => definitelyBlockedAtList ps i

/-- `Compound.DefinitelyBlockedAt`: every child must report `true`. -/
def definitelyBlockedAtList : List PossibleLines → Nat → Bool
  | [], _ => true
  | p :: ps, i => definitelyBlockedAt p i && definitelyBlockedAtList ps i

end

/-- The split-point loop of `Compound.MakeChoice`: accumulate child
weights until the running sum reaches `half`, never splitting off the
whole list; falls back to 1 when the loop finishes without breaking. -/
def splitIdxGo :
    List PossibleLines → Int → Int → Nat → Nat → Nat
  | [], _, _, _, _ => 1
  | p :: rest, half, acc, i, len =>
      let acc' := acc + maxPossibilities p
      if acc' ≥ half ∧ i + 1 < len then i + 1
      else splitIdxGo rest half acc' (i + 1) len

/-- `Compound.MakeChoice`'s weighted split index. -/
def computeSplitIdx (ps : List PossibleLines) : Nat :=
  splitIdxGo ps (maxPossibilitiesList ps / 2) 0 0 ps.length

/-- `MakeChoice`, with `none` standing for the Go panics (`Impossible`,
`Definite`, `Words`/`Compound` with at most one possibility). -/
def makeChoice : PossibleLines → Option (PossibleLines × PossibleLines)
  | .impossible _ => none
  | .definite _ => none
  | .words ws oi =>
      if ws.length ≤ 1 then none
      else
        let w1 := ws.take (ws.length / 2)
        let w2 := ws.drop (ws.length / 2)
        let idxs : Nat × Nat :=
          if oi < w1.length then (oi, 0) else (w1.length, oi - w1.length)
        some (MakeWords w1 idxs.1 (wordsNL ws), MakeWords w2 idxs.2 (wordsNL ws))
  | .blockBefore p =>
      (makeChoice p).map (fun c => (.blockBefore c.1, .blockBefore c.2))
  | .blockAfter p =>
      (makeChoice p).map (fun c => (.blockAfter c.1, .blockAfter c.2))
  | .blockBetween f s =>
      if maxPossibilities f > maxPossibilities s then
        (makeChoice f).map (fun c => (.blockBetween c.1 s, .blockBetween c.2 s))
      else
        (makeChoice s).map (fun c => (.blockBetween f c.1, .blockBetween f c.2))
  | .compound ps =>
      if ps.length ≤ 1 then none
      else if maxPossibilitiesList ps ≤ 1 then none
      else
        let splitIdx := computeSplitIdx ps
        some (MakeCompound (ps.take splitIdx) (numLettersHead ps),
              MakeCompound (ps.drop splitIdx) (numLettersHead ps))

/-! ### Lemmas about `CharSet.Add` -/

theorem and_shift_eq_zero_iff (n p : Nat) :
    (n &&& (1 <<< p)) = 0 ↔ n.testBit p = false := by
  rw [Nat.shiftLeft_eq, one_mul]
  constructor
  · intro h
    by_contra hb
    simp only [Bool.not_eq_false] at hb
    have : (n &&& 2 ^ p).testBit p = true := by
      simp [Nat.testBit_and, hb, Nat.testBit_two_pow_self]
    rw [h] at this
    simp [Nat.zero_testBit] at this
  · intro h
    apply Nat.eq_of_testBit_eq
    intro j
    simp only [Nat.testBit_and, Nat.zero_testBit, Nat.testBit_two_pow]
    by_cases hj : p = j
    · subst hj; simp [h]
    · simp [hj]

end XWGo

namespace XWGo

/-- C9: for every CharSet s and rune r, Add(r) errors iff r lies outside
the backtick..z range (96..122); an erroring Add leaves the set
unchanged, and a successful one makes r a member while changing no other
membership. -/
theorem charset_add_ok (s : CharSet) (r : Int) :
    ((s.addResult r).2 = true ↔ (r < 96 ∨ 122 < r)) ∧
    ((s.addResult r).2 = true → (s.addResult r).1 = s) ∧
    ((s.addResult r).2 = false →
      (s.addResult r).1.ContainsB r = true ∧
      ∀ q : Int, q ≠ r → (s.addResult r).1.ContainsB q = s.ContainsB q) := by
  by_cases hr : r < 96 ∨ 122 < r
  · refine ⟨by simp [CharSet.addResult, hr], ?_, ?_⟩
    · intro _; simp [CharSet.addResult, hr]
    · intro h; simp [CharSet.addResult, hr] at h
  · have hr' := hr
    push_neg at hr'
    obtain ⟨hr1, hr2⟩ := hr'
    by_cases hb : s.bits &&& (1 <<< (r - 96).toNat) = 0
    · refine ⟨by simp [CharSet.addResult, hr, hb], ?_, ?_⟩
      · intro h; simp [CharSet.addResult, hr, hb] at h
      · intro _
        constructor
        · simp only [CharSet.addResult, if_neg hr, hb, if_pos]
          simp only [CharSet.ContainsB, if_neg hr]
          rw [Nat.shiftLeft_eq, one_mul]
          simp [Nat.testBit_or, Nat.testBit_two_pow_self]
        · intro q hq
          simp only [CharSet.addResult, if_neg hr, hb, if_pos]
          by_cases hqr : q < 96 ∨ 122 < q
          · simp [CharSet.ContainsB, hqr]
          · have hq' := hqr
            push_neg at hq'
            obtain ⟨hq1, hq2⟩ := hq'
            have hne : (r - 96).toNat ≠ (q - 96).toNat := by
              rcases hq.lt_or_lt with h | h <;> omega
            simp only [CharSet.ContainsB, if_neg hqr]
            rw [Nat.shiftLeft_eq, one_mul]
            simp [Nat.testBit_or, Nat.testBit_two_pow_of_ne hne]
    · refine ⟨by simp [CharSet.addResult, hr, hb], ?_, ?_⟩
      · intro h; simp [CharSet.addResult, hr, hb] at h
      · intro _
        have htb : s.bits.testBit (r - 96).toNat = true := by
          rcases Bool.eq_false_or_eq_true (s.bits.testBit (r - 96).toNat)
            with h | h
          · exact h
          · exact absurd ((and_shift_eq_zero_iff _ _).mpr h) hb
        -- the bit was already set, so the set is returned unchanged
        refine ⟨?_, ?_⟩
        · simp only [CharSet.addResult, if_neg hr, if_neg hb]
          simp only [CharSet.ContainsB, if_neg hr]
          exact htb
        · intro q hq
          simp [CharSet.addResult, hr, hb]

/-! ### Basic facts about `lines`, `WFb` and `numLetters` -/

theorem numLetters_compound (ps : List PossibleLines) :
    numLetters (.compound ps) = numLettersHead ps := by
  cases ps <;> rfl

theorem linesList_append (a b : List PossibleLines) :
    linesList (a ++ b) = linesList a ++ linesList b := by
  induction a with
  | nil => simp [linesList]
  | cons p ps ih =>
    show linesList (p :: (ps ++ b)) = _
    simp [linesList, ih]

theorem mem_linesList {l : ConcreteLine} :
    ∀ {ps : List PossibleLines},
      l ∈ linesList ps ↔ ∃ p ∈ ps, l ∈ lines p := by
  intro ps
  induction ps with
  | nil => simp [linesList]
  | cons p ps ih => simp [linesList, ih, List.mem_append]

theorem WFbList_mem {ps : List PossibleLines} (h : WFbList ps = true)
    {p : PossibleLines} (hp : p ∈ ps) : WFb p = true := by
  induction ps with
  | nil => cases hp
  | cons q qs ih =>
    simp only [WFbList, Bool.and_eq_true] at h
    rcases List.mem_cons.mp hp with h1 | h2
    · subst h1; exact h.1
    · exact ih h.2 h2

theorem WFb_compound_parts {ps : List PossibleLines}
    (h : WFb (.compound ps) = true) :
    2 ≤ ps.length ∧
    (∀ p ∈ ps, isImpossible p = false ∧ isCompoundB p = false ∧
      numLetters p = numLettersHead ps) ∧
    WFbList ps = true := by
  simp only [WFb, Bool.and_eq_true, decide_eq_true_eq, List.all_eq_true,
    Bool.not_eq_true', Bool.and_eq_true] at h
  refine ⟨h.1.1, ?_, h.2⟩
  intro p hp
  have := h.1.2 p hp
  exact ⟨this.1.1, this.1.2, this.2⟩

theorem WFb_words_parts {ws : List Word} {oi : Nat}
    (h : WFb (.words ws oi) = true) :
    2 ≤ ws.length ∧ oi ≤ ws.length ∧
    (∀ w ∈ ws, w.length = wordsNL ws ∧ ∀ r ∈ w, 97 ≤ r ∧ r ≤ 122) := by
  simp only [WFb, Bool.and_eq_true, decide_eq_true_eq, List.all_eq_true] at h
  refine ⟨h.1.1, h.1.2, ?_⟩
  intro w hw
  have := h.2 w hw
  refine ⟨this.1, ?_⟩
  intro r hr
  have := this.2 r hr
  simp only [isLetter, Bool.and_eq_true, decide_eq_true_eq] at this
  exact this

theorem WFb_bb_parts {q : PossibleLines}
    (h : WFb (.blockBefore q) = true) :
    isImpossible q = false ∧ WFb q = true := by
  simp only [WFb, Bool.and_eq_true, Bool.not_eq_true'] at h
  tauto

theorem WFb_ba_parts {q : PossibleLines}
    (h : WFb (.blockAfter q) = true) :
    isImpossible q = false ∧ WFb q = true := by
  simp only [WFb, Bool.and_eq_true, Bool.not_eq_true'] at h
  tauto

theorem WFb_bw_parts {f s : PossibleLines}
    (h : WFb (.blockBetween f s) = true) :
    isImpossible f = false ∧ isImpossible s = false ∧
    WFb f = true ∧ WFb s = true := by
  simp only [WFb, Bool.and_eq_true, Bool.not_eq_true'] at h
  tauto

/-- Every line an operand yields has exactly `NumLetters` cells. -/
theorem length_of_mem_lines :
    ∀ p : PossibleLines, WFb p = true →
      ∀ l ∈ lines p, l.Line.length = numLetters p := by
  intro p
  induction p using PossibleLines.inductionOn with
  | imp n => intro _ l hl; simp [lines] at hl
  | defn d => intro _ l hl; simp [lines] at hl; subst hl; rfl
  | word ws oi =>
    intro h l hl
    simp only [lines, List.mem_map] at hl
    obtain ⟨w, hw, rfl⟩ := hl
    have := (WFb_words_parts h).2.2 w hw
    simpa [numLetters, wordsNL] using this.1
  | bb q ih =>
    intro h l hl
    simp only [lines, List.mem_map] at hl
    obtain ⟨m, hm, rfl⟩ := hl
    have := ih (WFb_bb_parts h).2 m hm
    simp only [List.length_cons, numLetters, this]
    omega
  | ba q ih =>
    intro h l hl
    simp only [lines, List.mem_map] at hl
    obtain ⟨m, hm, rfl⟩ := hl
    have := ih (WFb_ba_parts h).2 m hm
    simp only [List.length_append, List.length_cons, List.length_nil,
      numLetters, this]
    omega
  | bw f s ihf ihs =>
    intro h l hl
    obtain ⟨h1i, h2i, hwf, hws⟩ := WFb_bw_parts h
    simp only [lines, List.mem_flatMap, List.mem_map] at hl
    obtain ⟨a, ha, b, hb, rfl⟩ := hl
    have h1 := ihf hwf a ha
    have h2 := ihs hws b hb
    simp only [glueBetween, numLetters, List.length_append, List.length_cons,
      h1, h2]
    omega
  | comp ps ih =>
    intro h l hl
    obtain ⟨hlen, hparts, hwf⟩ := WFb_compound_parts h
    simp only [lines] at hl
    obtain ⟨p, hp, hlp⟩ := mem_linesList.mp hl
    have := ih p hp (WFbList_mem hwf hp) l hlp
    rw [this, numLetters_compound]
    exact (hparts p hp).2.2

/-- A well-formed non-`Impossible` value yields at least one line. -/
theorem lines_ne_nil :
    ∀ p : PossibleLines, WFb p = true → isImpossible p = false →
      lines p ≠ [] := by
  intro p
  induction p using PossibleLines.inductionOn with
  | imp n => intro _ hi; simp [isImpossible] at hi
  | defn d => intro _ _; simp [lines]
  | word ws oi =>
    intro h _
    have := (WFb_words_parts h).1
    cases ws with
    | nil => simp at this
    | cons w ws => simp [lines]
  | bb q ih =>
    intro h _
    obtain ⟨hi, hw⟩ := WFb_bb_parts h
    have := ih hw hi
    simp [lines, this]
  | ba q ih =>
    intro h _
    obtain ⟨hi, hw⟩ := WFb_ba_parts h
    have := ih hw hi
    simp [lines, this]
  | bw f s ihf ihs =>
    intro h _
    obtain ⟨h1i, h2i, hwf, hws⟩ := WFb_bw_parts h
    have h1 := ihf hwf h1i
    have h2 := ihs hws h2i
    simp only [lines, ne_eq, List.flatMap_eq_nil_iff, not_forall]
    rcases List.exists_mem_of_ne_nil _ h1 with ⟨a, ha⟩
    exact ⟨a, ha, by simp [List.map_eq_nil_iff, h2]⟩
  | comp ps ih =>
    intro h _
    obtain ⟨hlen, hparts, hwf⟩ := WFb_compound_parts h
    cases ps with
    | nil => simp at hlen
    | cons p ps =>
      have hp : p ∈ p :: ps := List.mem_cons_self p ps
      have := ih p hp (WFbList_mem hwf hp) (hparts p hp).1
      simp only [lines, linesList]
      intro hcon
      rcases List.append_eq_nil.mp hcon with ⟨hc1, _⟩
      exact absurd hc1 this

/-- `MaxPossibilities` is never negative. -/
theorem maxPossibilities_nonneg :
    ∀ p : PossibleLines, 0 ≤ maxPossibilities p := by
  intro p
  induction p using PossibleLines.inductionOn with
  | imp n => simp [maxPossibilities]
  | defn d => simp [maxPossibilities]
  | word ws oi => simp [maxPossibilities]
  | bb q ih => simpa [maxPossibilities] using ih
  | ba q ih => simpa [maxPossibilities] using ih
  | bw f s ihf ihs =>
    simp only [maxPossibilities]
    positivity
  | comp ps ih =>
    simp only [maxPossibilities]
    induction ps with
    | nil => simp [maxPossibilitiesList]
    | cons q qs ihq =>
      have h1 := ih q (List.mem_cons_self q qs)
      have h2 := ihq (fun r hr => ih r (List.mem_cons_of_mem q hr))
      simp only [maxPossibilitiesList]
      omega

theorem maxPossibilitiesList_nonneg (ps : List PossibleLines) :
    0 ≤ maxPossibilitiesList ps := by
  induction ps with
  | nil => simp [maxPossibilitiesList]
  | cons q qs ih =>
    have := maxPossibilities_nonneg q
    simp only [maxPossibilitiesList]
    omega

/-- A well-formed non-`Impossible` value has at least one possibility. -/
theorem maxPossibilities_pos :
    ∀ p : PossibleLines, WFb p = true → isImpossible p = false →
      1 ≤ maxPossibilities p := by
  intro p
  induction p using PossibleLines.inductionOn with
  | imp n => intro _ hi; simp [isImpossible] at hi
  | defn d => intro _ _; simp [maxPossibilities]
  | word ws oi =>
    intro h _
    have := (WFb_words_parts h).1
    simp only [maxPossibilities]
    exact_mod_cast Nat.one_le_of_lt this
  | bb q ih =>
    intro h _
    obtain ⟨hi, hw⟩ := WFb_bb_parts h
    simpa [maxPossibilities] using ih hw hi
  | ba q ih =>
    intro h _
    obtain ⟨hi, hw⟩ := WFb_ba_parts h
    simpa [maxPossibilities] using ih hw hi
  | bw f s ihf ihs =>
    intro h _
    obtain ⟨h1i, h2i, hwf, hws⟩ := WFb_bw_parts h
    have h1 := ihf hwf h1i
    have h2 := ihs hws h2i
    simp only [maxPossibilities]
    nlinarith
  | comp ps ih =>
    intro h _
    obtain ⟨hlen, hparts, hwf⟩ := WFb_compound_parts h
    cases ps with
    | nil => simp at hlen
    | cons p ps =>
      have hp : p ∈ p :: ps := List.mem_cons_self p ps
      have h1 := ih p hp (WFbList_mem hwf hp) (hparts p hp).1
      have h2 := maxPossibilitiesList_nonneg ps
      simp only [maxPossibilities, maxPossibilitiesList]
      omega

/-! ### `getD` helper lemmas -/

theorem getD_append_left {a b : List Int} {i : Nat} (h : i < a.length) :
    (a ++ b).getD i 0 = a.getD i 0 := by
  induction a generalizing i with
  | nil => simp at h
  | cons x a ih =>
    cases i with
    | zero => rfl
    | succ j =>
      show (a ++ b).getD j 0 = a.getD j 0
      exact ih (by simpa using h)

theorem getD_append_right {a b : List Int} {i : Nat} (h : a.length ≤ i) :
    (a ++ b).getD i 0 = b.getD (i - a.length) 0 := by
  induction a generalizing i with
  | nil => simp
  | cons x a ih =>
    cases i with
    | zero => simp at h
    | succ j =>
      show (a ++ b).getD j 0 = b.getD (j + 1 - (x :: a).length) 0
      rw [show j + 1 - (x :: a).length = j - a.length by
        simp only [List.length_cons]; omega]
      exact ih (Nat.le_of_succ_le_succ h)

theorem getD_mem {l : List Int} {i : Nat} (h : i < l.length) :
    l.getD i 0 ∈ l := by
  induction l generalizing i with
  | nil => simp at h
  | cons x a ih =>
    cases i with
    | zero => simp
    | succ j =>
      show a.getD j 0 ∈ x :: a
      exact List.mem_cons_of_mem _ (ih (by simpa using h))

/-! ### `DefinitelyBlockedAt` versus the yielded lines -/

theorem dbaList_eq_all (ps : List PossibleLines) (i : Nat) :
    definitelyBlockedAtList ps i =
      ps.all (fun p => definitelyBlockedAt p i) := by
  induction ps with
  | nil => simp [definitelyBlockedAtList]
  | cons p ps ih => simp [definitelyBlockedAtList, ih]

/-- On a well-formed value that is not `Impossible`,
`DefinitelyBlockedAt` answers exactly "every yielded line is blocked
here". -/
theorem dba_iff_nonimp :
    ∀ p, WFb p = true → isImpossible p = false → ∀ i, i < numLetters p →
      (definitelyBlockedAt p i = true ↔
        ∀ l ∈ lines p, cellAt l i = kBlocked) := by
  intro p
  induction p using PossibleLines.inductionOn with
  | imp n => intro _ hi; simp [isImpossible] at hi
  | defn d =>
    intro _ _ i _
    simp only [definitelyBlockedAt, lines, List.mem_singleton, beq_iff_eq,
      forall_eq]
  | word ws oi =>
    intro h _ i hi
    obtain ⟨hlen, hoi, hwords⟩ := WFb_words_parts h
    cases ws with
    | nil => simp at hlen
    | cons w0 ws' =>
      simp only [definitelyBlockedAt]
      constructor
      · intro hcon; exact absurd hcon (by simp)
      · intro hall
        exfalso
        have hw0 := hwords w0 (List.mem_cons_self w0 ws')
        have hmem : (⟨w0, [w0]⟩ : ConcreteLine) ∈
            lines (.words (w0 :: ws') oi) := by
          simp [lines]
        have hcell := hall _ hmem
        simp only [cellAt, kBlocked] at hcell
        have hlen0 : i < w0.length := hi
        have := hw0.2 _ (getD_mem hlen0)
        omega
  | bb q ih =>
    intro h _ i hi
    obtain ⟨hqi, hqw⟩ := WFb_bb_parts h
    by_cases h0 : i = 0
    · subst h0
      simp only [definitelyBlockedAt]
      simp only [reduceIte, true_iff]
      intro l hl
      simp only [lines, List.mem_map] at hl
      obtain ⟨m, _, rfl⟩ := hl
      rfl
    · obtain ⟨j, rfl⟩ : ∃ j, i = j + 1 := ⟨i - 1, by omega⟩
      have hj : j < numLetters q := by
        simp only [numLetters] at hi; omega
      rw [show definitelyBlockedAt (.blockBefore q) (j + 1) =
          definitelyBlockedAt q j by
        simp [definitelyBlockedAt]]
      rw [ih hqw hqi j hj]
      simp only [lines, List.forall_mem_map]
      constructor
      · intro ha m hm
        show (kBlocked :: m.Line).getD (j + 1) 0 = kBlocked
        simpa [cellAt] using ha m hm
      · intro ha m hm
        have := ha m hm
        simp only [cellAt] at this ⊢
        simpa using this
  | ba q ih =>
    intro h _ i hi
    obtain ⟨hqi, hqw⟩ := WFb_ba_parts h
    by_cases h0 : i = numLetters q
    · subst h0
      simp only [definitelyBlockedAt]
      simp only [reduceIte, true_iff]
      intro l hl
      simp only [lines, List.mem_map] at hl
      obtain ⟨m, hm, rfl⟩ := hl
      have hlm := length_of_mem_lines q hqw m hm
      show (m.Line ++ [kBlocked]).getD (numLetters q) 0 = kBlocked
      rw [getD_append_right (by omega)]
      rw [show numLetters q - m.Line.length = 0 by omega]
      rfl
    · have hj : i < numLetters q := by
        simp only [numLetters] at hi; omega
      rw [show definitelyBlockedAt (.blockAfter q) i =
          definitelyBlockedAt q i by
        simp [definitelyBlockedAt, h0]]
      rw [ih hqw hqi i hj]
      simp only [lines, List.forall_mem_map]
      constructor
      · intro ha m hm
        have hlm := length_of_mem_lines q hqw m hm
        show (m.Line ++ [kBlocked]).getD i 0 = kBlocked
        rw [getD_append_left (by omega)]
        exact ha m hm
      · intro ha m hm
        have hlm := length_of_mem_lines q hqw m hm
        have := ha m hm
        show m.Line.getD i 0 = kBlocked
        rw [show m.Line.getD i 0 = (m.Line ++ [kBlocked]).getD i 0 from
          (getD_append_left (by omega)).symm]
        exact this
  | bw f s ihf ihs =>
    intro h _ i hi
    obtain ⟨hfi, hsi, hfw, hsw⟩ := WFb_bw_parts h
    have hfne := lines_ne_nil f hfw hfi
    have hsne := lines_ne_nil s hsw hsi
    by_cases h0 : i = numLetters f
    · subst h0
      simp only [definitelyBlockedAt]
      simp only [reduceIte, true_iff]
      intro l hl
      simp only [lines, List.mem_flatMap, List.mem_map] at hl
      obtain ⟨a, ha, b, hb, rfl⟩ := hl
      have hla := length_of_mem_lines f hfw a ha
      show (a.Line ++ kBlocked :: b.Line).getD (numLetters f) 0 = kBlocked
      rw [getD_append_right (by omega)]
      rw [show numLetters f - a.Line.length = 0 by omega]
      rfl
    · by_cases hlt : i < numLetters f
      · rw [show definitelyBlockedAt (.blockBetween f s) i =
            definitelyBlockedAt f i by
          simp [definitelyBlockedAt, h0, hlt]]
        rw [ihf hfw hfi i hlt]
        constructor
        · intro ha l hl
          simp only [lines, List.mem_flatMap, List.mem_map] at hl
          obtain ⟨a, haa, b, hb, rfl⟩ := hl
          have hla := length_of_mem_lines f hfw a haa
          show (a.Line ++ kBlocked :: b.Line).getD i 0 = kBlocked
          rw [getD_append_left (by omega)]
          exact ha a haa
        · intro ha a haa
          rcases List.exists_mem_of_ne_nil _ hsne with ⟨b, hb⟩
          have hmem : glueBetween a b ∈ lines (.blockBetween f s) := by
            simp only [lines, List.mem_flatMap, List.mem_map]
            exact ⟨a, haa, b, hb, rfl⟩
          have := ha _ hmem
          have hla := length_of_mem_lines f hfw a haa
          show a.Line.getD i 0 = kBlocked
          rw [show a.Line.getD i 0 =
              (a.Line ++ kBlocked :: b.Line).getD i 0 from
            (getD_append_left (by omega)).symm]
          exact this
      · have hgt : numLetters f < i := by omega
        have hj : i - numLetters f - 1 < numLetters s := by
          simp only [numLetters] at hi; omega
        rw [show definitelyBlockedAt (.blockBetween f s) i =
            definitelyBlockedAt s (i - numLetters f - 1) by
          simp [definitelyBlockedAt, h0, hlt]]
        rw [ihs hsw hsi _ hj]
        constructor
        · intro ha l hl
          simp only [lines, List.mem_flatMap, List.mem_map] at hl
          obtain ⟨a, haa, b, hb, rfl⟩ := hl
          have hla := length_of_mem_lines f hfw a haa
          show (a.Line ++ kBlocked :: b.Line).getD i 0 = kBlocked
          rw [getD_append_right (by omega)]
          obtain ⟨j, hij⟩ : ∃ j, i - a.Line.length = j + 1 :=
            ⟨i - a.Line.length - 1, by omega⟩
          rw [hij]
          show b.Line.getD j 0 = kBlocked
          rw [show j = i - numLetters f - 1 by omega]
          exact ha b hb
        · intro ha b hb
          rcases List.exists_mem_of_ne_nil _ hfne with ⟨a, haa⟩
          have hmem : glueBetween a b ∈ lines (.blockBetween f s) := by
            simp only [lines, List.mem_flatMap, List.mem_map]
            exact ⟨a, haa, b, hb, rfl⟩
          have := ha _ hmem
          have hla := length_of_mem_lines f hfw a haa
          simp only [glueBetween, cellAt] at this
          rw [getD_append_right (by omega)] at this
          obtain ⟨j, hij⟩ : ∃ j, i - a.Line.length = j + 1 :=
            ⟨i - a.Line.length - 1, by omega⟩
          rw [hij] at this
          have hstep : (kBlocked :: b.Line).getD (j + 1) 0 =
              b.Line.getD j 0 := rfl
          rw [hstep] at this
          show b.Line.getD (i - numLetters f - 1) 0 = kBlocked
          rw [show i - numLetters f - 1 = j by omega]
          exact this
  | comp ps ih =>
    intro h _ i hi
    obtain ⟨hlen, hparts, hwf⟩ := WFb_compound_parts h
    simp only [definitelyBlockedAt, dbaList_eq_all, List.all_eq_true, lines]
    constructor
    · intro ha l hl
      obtain ⟨p, hp, hlp⟩ := mem_linesList.mp hl
      have hiw : i < numLetters p := by
        rw [(hparts p hp).2.2, ← numLetters_compound]
        exact hi
      exact ((ih p hp (WFbList_mem hwf hp) (hparts p hp).1 i hiw).mp
        (ha p hp)) l hlp
    · intro ha p hp
      have hiw : i < numLetters p := by
        rw [(hparts p hp).2.2, ← numLetters_compound]
        exact hi
      refine (ih p hp (WFbList_mem hwf hp) (hparts p hp).1 i hiw).mpr ?_
      intro l hl
      exact ha l (mem_linesList.mpr ⟨p, hp, hl⟩)

/-! ### Constructor lemmas -/

theorem wfShapeList_mem {ps : List PossibleLines} (h : wfShapeList ps = true)
    {p : PossibleLines} (hp : p ∈ ps) : wfShape p = true := by
  induction ps with
  | nil => cases hp
  | cons q qs ih =>
    simp only [wfShapeList, Bool.and_eq_true] at h
    rcases List.mem_cons.mp hp with h1 | h2
    · subst h1; exact h.1
    · exact ih h.2 h2

theorem wfShape_compound_parts {ps : List PossibleLines}
    (h : wfShape (.compound ps) = true) :
    ∀ q ∈ ps, wfShape q = true ∧ numLetters q = numLetters (.compound ps) := by
  simp only [wfShape, Bool.and_eq_true, List.all_eq_true,
    decide_eq_true_eq] at h
  intro q hq
  rw [numLetters_compound]
  exact ⟨wfShapeList_mem h.2 hq, h.1 q hq⟩

theorem wfShapeList_of_forall {ps : List PossibleLines}
    (h : ∀ q ∈ ps, wfShape q = true) : wfShapeList ps = true := by
  induction ps with
  | nil => rfl
  | cons q qs ih =>
    simp only [wfShapeList, Bool.and_eq_true]
    exact ⟨h q (List.mem_cons_self q qs),
      ih (fun r hr => h r (List.mem_cons_of_mem q hr))⟩

theorem maxPossibilitiesList_append (a b : List PossibleLines) :
    maxPossibilitiesList (a ++ b) =
      maxPossibilitiesList a + maxPossibilitiesList b := by
  induction a with
  | nil => simp [maxPossibilitiesList]
  | cons p ps ih =>
    show maxPossibilitiesList (p :: (ps ++ b)) = _
    simp only [maxPossibilitiesList, ih]
    omega

/-- Well-formedness entails the shape invariant. -/
theorem wfShape_of_WFb : ∀ p, WFb p = true → wfShape p = true := by
  intro p
  induction p using PossibleLines.inductionOn with
  | imp n => intro _; rfl
  | defn d => intro _; rfl
  | word ws oi => intro _; rfl
  | bb q ih => intro h; exact ih (WFb_bb_parts h).2
  | ba q ih => intro h; exact ih (WFb_ba_parts h).2
  | bw f s ihf ihs =>
    intro h
    obtain ⟨_, _, hf, hs⟩ := WFb_bw_parts h
    simp only [wfShape, Bool.and_eq_true]
    exact ⟨ihf hf, ihs hs⟩
  | comp ps ih =>
    intro h
    obtain ⟨hlen, hparts, hwf⟩ := WFb_compound_parts h
    simp only [wfShape, Bool.and_eq_true, List.all_eq_true, decide_eq_true_eq]
    constructor
    · intro p hp; exact (hparts p hp).2.2
    · exact wfShapeList_of_forall
        (fun q hq => ih q hq (WFbList_mem hwf hq))

theorem lines_MakeWords (ws : List Word) (oi n : Nat) :
    lines (MakeWords ws oi n) = ws.map (fun w => ⟨w, [w]⟩) := by
  match ws with
  | [] => rfl
  | [w] => rfl
  | a :: b :: t => rfl

theorem maxPossibilities_MakeWords (ws : List Word) (oi n : Nat) :
    maxPossibilities (MakeWords ws oi n) = ws.length := by
  match ws with
  | [] => rfl
  | [w] => rfl
  | a :: b :: t => rfl

theorem numLetters_MakeWords {ws : List Word} {oi n : Nat}
    (h : ∀ w ∈ ws, w.length = n) :
    numLetters (MakeWords ws oi n) = n := by
  match ws with
  | [] => rfl
  | [w] => exact h w (List.mem_singleton_self w)
  | a :: b :: t =>
    show ((a :: b :: t).headD []).length = n
    exact h a (List.mem_cons_self _ _)

theorem wfShape_MakeWords (ws : List Word) (oi n : Nat) :
    wfShape (MakeWords ws oi n) = true := by
  match ws with
  | [] => rfl
  | [w] => rfl
  | a :: b :: t => rfl

theorem isCompoundB_MakeWords (ws : List Word) (oi n : Nat) :
    isCompoundB (MakeWords ws oi n) = false := by
  match ws with
  | [] => rfl
  | [w] => rfl
  | a :: b :: t => rfl

theorem linesList_flatten (ps : List PossibleLines) :
    linesList (flattenForCompound ps) = linesList ps := by
  induction ps with
  | nil => rfl
  | cons p ps ih =>
    cases p <;>
      simp only [flattenForCompound, linesList, lines, ih,
        linesList_append, List.nil_append]

theorem maxPossibilitiesList_flatten (ps : List PossibleLines) :
    maxPossibilitiesList (flattenForCompound ps) =
      maxPossibilitiesList ps := by
  induction ps with
  | nil => rfl
  | cons p ps ih =>
    cases p with
    | impossible n =>
      simp only [flattenForCompound, maxPossibilitiesList, ih,
        maxPossibilities]
      omega
    | compound cs =>
      simp only [flattenForCompound, maxPossibilitiesList,
        maxPossibilities, maxPossibilitiesList_append, ih]
    | definite l => simp only [flattenForCompound, maxPossibilitiesList, ih]
    | words ws oi => simp only [flattenForCompound, maxPossibilitiesList, ih]
    | blockBefore q => simp only [flattenForCompound, maxPossibilitiesList, ih]
    | blockAfter q => simp only [flattenForCompound, maxPossibilitiesList, ih]
    | blockBetween f s =>
      simp only [flattenForCompound, maxPossibilitiesList, ih]

theorem lines_MakeCompound :
    ∀ N lst n, plListSize lst ≤ N →
      lines (MakeCompound lst n) = linesList lst := by
  intro N
  induction N with
  | zero =>
    intro lst n hle
    cases lst with
    | nil => rw [MakeCompound]; rfl
    | cons p ps =>
      have := plSize_pos p
      simp only [plListSize] at hle
      omega
  | succ N ih =>
    intro lst n hle
    rw [MakeCompound]
    by_cases h0 : lst.length = 0
    · rw [if_pos h0]
      rw [List.length_eq_zero.mp h0]
      rfl
    · rw [if_neg h0]
      by_cases h1 : lst.length = 1
      · rw [if_pos h1]
        obtain ⟨p, rfl⟩ := List.length_eq_one.mp h1
        simp [linesList, lines]
      · rw [if_neg h1]
        by_cases hany : lst.any (fun p => isImpossible p || isCompoundB p) = true
        · rw [dif_pos hany]
          rw [ih _ n (by
            have := plListSize_flatten_lt lst hany
            omega)]
          exact linesList_flatten lst
        · rw [dif_neg hany]
          rfl

theorem maxPossibilities_MakeCompound :
    ∀ N lst n, plListSize lst ≤ N →
      maxPossibilities (MakeCompound lst n) = maxPossibilitiesList lst := by
  intro N
  induction N with
  | zero =>
    intro lst n hle
    cases lst with
    | nil => rw [MakeCompound]; rfl
    | cons p ps =>
      have := plSize_pos p
      simp only [plListSize] at hle
      omega
  | succ N ih =>
    intro lst n hle
    rw [MakeCompound]
    by_cases h0 : lst.length = 0
    · rw [if_pos h0]
      rw [List.length_eq_zero.mp h0]
      rfl
    · rw [if_neg h0]
      by_cases h1 : lst.length = 1
      · rw [if_pos h1]
        obtain ⟨p, rfl⟩ := List.length_eq_one.mp h1
        simp [maxPossibilitiesList, maxPossibilities]
      · rw [if_neg h1]
        by_cases hany : lst.any (fun p => isImpossible p || isCompoundB p) = true
        · rw [dif_pos hany]
          rw [ih _ n (by
            have := plListSize_flatten_lt lst hany
            omega)]
          exact maxPossibilitiesList_flatten lst
        · rw [dif_neg hany]
          rfl

theorem MakeCompound_shape :
    ∀ N lst n, plListSize lst ≤ N →
      (∀ p ∈ lst, wfShape p = true ∧ numLetters p = n) →
      numLetters (MakeCompound lst n) = n ∧
      wfShape (MakeCompound lst n) = true := by
  intro N
  induction N with
  | zero =>
    intro lst n hle hprop
    cases lst with
    | nil => rw [MakeCompound]; exact ⟨rfl, rfl⟩
    | cons p ps =>
      have := plSize_pos p
      simp only [plListSize] at hle
      omega
  | succ N ih =>
    intro lst n hle hprop
    rw [MakeCompound]
    by_cases h0 : lst.length = 0
    · rw [if_pos h0]
      exact ⟨rfl, rfl⟩
    · rw [if_neg h0]
      by_cases h1 : lst.length = 1
      · rw [if_pos h1]
        obtain ⟨p, rfl⟩ := List.length_eq_one.mp h1
        have := hprop p (List.mem_singleton_self p)
        exact ⟨this.2, this.1⟩
      · rw [if_neg h1]
        by_cases hany : lst.any (fun p => isImpossible p || isCompoundB p) = true
        · rw [dif_pos hany]
          refine ih _ n (by
            have := plListSize_flatten_lt lst hany
            omega) ?_
          -- flattening preserves the member property
          clear hany h0 h1 hle
          induction lst with
          | nil => intro q hq; cases hq
          | cons p ps ihl =>
            intro q hq
            have hp := hprop p (List.mem_cons_self p ps)
            have hps : ∀ r ∈ ps, wfShape r = true ∧ numLetters r = n :=
              fun r hr => hprop r (List.mem_cons_of_mem p hr)
            cases p with
            | impossible m => exact ihl hps q hq
            | compound cs =>
              simp only [flattenForCompound, List.mem_append] at hq
              rcases hq with hq | hq
              · have := wfShape_compound_parts hp.1 q hq
                exact ⟨this.1, by rw [this.2, hp.2]⟩
              · exact ihl hps q hq
            | definite l =>
              rcases List.mem_cons.mp hq with h | h
              · subst h; exact hp
              · exact ihl hps q h
            | words ws oi =>
              rcases List.mem_cons.mp hq with h | h
              · subst h; exact hp
              · exact ihl hps q h
            | blockBefore r =>
              rcases List.mem_cons.mp hq with h | h
              · subst h; exact hp
              · exact ihl hps q h
            | blockAfter r =>
              rcases List.mem_cons.mp hq with h | h
              · subst h; exact hp
              · exact ihl hps q h
            | blockBetween f s =>
              rcases List.mem_cons.mp hq with h | h
              · subst h; exact hp
              · exact ihl hps q h
        · rw [dif_neg hany]
          cases lst with
          | nil => simp at h0
          | cons p ps =>
            have hp := hprop p (List.mem_cons_self p ps)
            constructor
            · rw [numLetters_compound]
              exact hp.2
            · simp only [wfShape, Bool.and_eq_true, List.all_eq_true,
                decide_eq_true_eq]
              constructor
              · intro q hq
                rw [(hprop q hq).2]
                show n = numLettersHead (p :: ps)
                simp only [numLettersHead]
                omega
              · exact wfShapeList_of_forall (fun q hq => (hprop q hq).1)

/-! ### Filtering commutes with the iteration order -/

theorem map_filter_comm {α β : Type} (f : α → β) (P : β → Bool)
    (Q : α → Bool) :
    ∀ L : List α, (∀ a ∈ L, P (f a) = Q a) →
      (L.map f).filter P = (L.filter Q).map f := by
  intro L
  induction L with
  | nil => intro _; rfl
  | cons a L ih =>
    intro h
    have ha := h a (List.mem_cons_self a L)
    simp only [List.map_cons, List.filter_cons, ha]
    by_cases hq : Q a = true
    · simp only [hq, if_pos trivial, List.map_cons]
      rw [ih (fun b hb => h b (List.mem_cons_of_mem a hb))]
    · simp only [Bool.not_eq_true] at hq
      rw [hq, if_neg Bool.false_ne_true, if_neg Bool.false_ne_true]
      rw [ih (fun b hb => h b (List.mem_cons_of_mem a hb))]

theorem filter_map_of_const {α β : Type} (g : α → β) (P : β → Bool)
    (M : List α) (b : Bool) (h : ∀ a ∈ M, P (g a) = b) :
    (M.map g).filter P = if b then M.map g else [] := by
  cases b with
  | true =>
    simp only [if_pos trivial]
    apply List.filter_eq_self.mpr
    intro x hx
    obtain ⟨a, ha, rfl⟩ := List.mem_map.mp hx
    exact h a ha
  | false =>
    rw [if_neg (Bool.false_ne_true)]
    apply List.filter_eq_nil_iff.mpr
    intro x hx
    obtain ⟨a, ha, rfl⟩ := List.mem_map.mp hx
    simp [h a ha]

theorem flatMap_filter_left {α β : Type} (g : α → α → β) (P : β → Bool)
    (Q : α → Bool) (M : List α) :
    ∀ L : List α, (∀ a ∈ L, ∀ b ∈ M, P (g a b) = Q a) →
      (L.filter Q).flatMap (fun a => M.map (g a)) =
        (L.flatMap (fun a => M.map (g a))).filter P := by
  intro L
  induction L with
  | nil => intro _; rfl
  | cons a L ih =>
    intro h
    simp only [List.filter_cons, List.flatMap_cons, List.filter_append]
    rw [← ih (fun x hx => h x (List.mem_cons_of_mem a hx))]
    rw [filter_map_of_const (g a) P M (Q a)
      (fun b hb => h a (List.mem_cons_self a L) b hb)]
    by_cases hq : Q a = true
    · simp [hq]
    · simp only [Bool.not_eq_true] at hq
      simp [hq]

theorem flatMap_filter_right {α β : Type} (g : α → α → β) (P : β → Bool)
    (Q : α → Bool) (M : List α) :
    ∀ L : List α, (∀ a ∈ L, ∀ b ∈ M, P (g a b) = Q b) →
      L.flatMap (fun a => (M.filter Q).map (g a)) =
        (L.flatMap (fun a => M.map (g a))).filter P := by
  intro L
  induction L with
  | nil => intro _; rfl
  | cons a L ih =>
    intro h
    simp only [List.flatMap_cons, List.filter_append]
    rw [← ih (fun x hx => h x (List.mem_cons_of_mem a hx))]
    rw [map_filter_comm (g a) P Q M
      (fun b hb => h a (List.mem_cons_self a L) b hb)]

/-! ### `lines` through the `build` helpers -/

theorem isImpossible_iff {p : PossibleLines} :
    isImpossible p = true ↔ ∃ n, p = .impossible n := by
  cases p <;> simp [isImpossible]

theorem lines_buildBB (n : Nat) (r : PossibleLines) :
    lines (buildBB n r) =
      (lines r).map (fun l => ⟨kBlocked :: l.Line, l.Words⟩) := by
  by_cases h : isImpossible r = true
  · obtain ⟨m, rfl⟩ := isImpossible_iff.mp h
    simp [buildBB, isImpossible, lines]
  · simp only [Bool.not_eq_true] at h
    simp [buildBB, h, lines]

theorem lines_buildBA (n : Nat) (r : PossibleLines) :
    lines (buildBA n r) =
      (lines r).map (fun l => ⟨l.Line ++ [kBlocked], l.Words⟩) := by
  by_cases h : isImpossible r = true
  · obtain ⟨m, rfl⟩ := isImpossible_iff.mp h
    simp [buildBA, isImpossible, lines]
  · simp only [Bool.not_eq_true] at h
    simp [buildBA, h, lines]

theorem lines_buildBW (n : Nat) (a b : PossibleLines) :
    lines (buildBW n a b) =
      (lines a).flatMap (fun x => (lines b).map (fun y => glueBetween x y)) := by
  by_cases ha : isImpossible a = true
  · obtain ⟨m, rfl⟩ := isImpossible_iff.mp ha
    simp [buildBW, isImpossible, lines]
  · by_cases hb : isImpossible b = true
    · obtain ⟨m, rfl⟩ := isImpossible_iff.mp hb
      simp only [Bool.not_eq_true] at ha
      simp [buildBW, ha, isImpossible, lines, List.flatMap]
    · simp only [Bool.not_eq_true] at ha hb
      simp [buildBW, ha, hb, lines]

/-! ### The `Compound.Filter` bookkeeping loop -/

theorem filterCollect_false :
    ∀ ps ch i, (filterCollect ps ch i false).1 = false →
      ∀ p ∈ ps, filter p ch i = p := by
  intro ps
  induction ps with
  | nil => intro ch i _ p hp; cases hp
  | cons p ps ih =>
    intro ch i hflag q hq
    rw [filterCollect] at hflag
    by_cases hc : (false = false ∧ filter p ch i = p)
    · rw [if_pos hc] at hflag
      rcases List.mem_cons.mp hq with rfl | hq2
      · exact hc.2
      · exact ih ch i hflag q hq2
    · rw [if_neg hc] at hflag
      simp at hflag

theorem filterCollect_lines (pred : ConcreteLine → Bool) :
    ∀ ps ch i seen,
      (∀ p ∈ ps, lines (filter p ch i) = (lines p).filter pred) →
      linesList (filterCollect ps ch i seen).2 =
        (linesList ps).filter pred := by
  intro ps
  induction ps with
  | nil => intro ch i seen _; rfl
  | cons p ps ih =>
    intro ch i seen h
    have hp := h p (List.mem_cons_self p ps)
    have hps := fun r hr => h r (List.mem_cons_of_mem p hr)
    rw [filterCollect]
    by_cases hc : (seen = false ∧ filter p ch i = p)
    · rw [if_pos hc]
      show linesList (p :: (filterCollect ps ch i false).2) = _
      simp only [linesList, List.filter_append, ih ch i false hps]
      rw [hc.2] at hp
      conv_lhs => rw [hp]
    · rw [if_neg hc]
      show linesList
          (if isImpossible (filter p ch i) = true
            then (filterCollect ps ch i true).2
            else filter p ch i :: (filterCollect ps ch i true).2) =
        List.filter pred (linesList (p :: ps))
      by_cases himp : isImpossible (filter p ch i) = true
      · rw [if_pos himp]
        obtain ⟨m, hm⟩ := isImpossible_iff.mp himp
        rw [ih ch i true hps]
        simp only [linesList, List.filter_append]
        have hnil : (lines p).filter pred = [] := by
          rw [← hp, hm]; rfl
        rw [hnil, List.nil_append]
      · rw [if_neg himp]
        simp only [linesList, List.filter_append, ih ch i true hps, hp]

/-- `Filter` restricts the yielded lines to exactly those whose
`index`-th cell is the constraint, preserving the iteration order. -/
theorem filter_lines :
    ∀ p, WFb p = true → ∀ ch i, i < numLetters p →
      lines (filter p ch i) =
        (lines p).filter (fun l => cellAt l i == ch) := by
  intro p
  induction p using PossibleLines.inductionOn with
  | imp n => intro _ ch i _; rfl
  | defn d =>
    intro _ ch i _
    simp only [filter, lines]
    by_cases hc : ch = cellAt d i
    · rw [if_pos hc, List.filter_cons]
      simp [hc.symm, lines]
    · rw [if_neg hc, List.filter_cons]
      have : (cellAt d i == ch) = false := by
        simp only [beq_eq_false_iff_ne, ne_eq]
        exact fun hcon => hc hcon.symm
      simp [this, lines]
  | word ws oi =>
    intro h ch i hi
    obtain ⟨hlen, hoi, hwords⟩ := WFb_words_parts h
    have hcell : ∀ w ∈ ws,
        ((fun l => cellAt l i == ch) (⟨w, [w]⟩ : ConcreteLine)) =
          (chAt w i == ch) := by
      intro w hw; rfl
    simp only [filter]
    by_cases hb : ch = kBlocked
    · rw [if_pos hb]
      show ([] : List ConcreteLine) = _
      symm
      apply List.filter_eq_nil_iff.mpr
      intro l hl
      simp only [lines, List.mem_map] at hl
      obtain ⟨w, hw, rfl⟩ := hl
      have hw1 := (hwords w hw).1
      have hiw : i < w.length := by
        rw [hw1]
        exact hi
      have hlet := (hwords w hw).2 _ (getD_mem hiw)
      show ¬((w.getD i 0 == ch) = true)
      simp only [beq_iff_eq, hb, kBlocked]
      omega
    · rw [if_neg hb]
      by_cases hall :
          (decide (0 < ws.length) && ws.all fun w => chAt w i == ch) = true
      · rw [if_pos hall]
        symm
        apply List.filter_eq_self.mpr
        intro l hl
        simp only [lines, List.mem_map] at hl
        obtain ⟨w, hw, rfl⟩ := hl
        simp only [Bool.and_eq_true, List.all_eq_true] at hall
        exact hall.2 w hw
      · rw [if_neg hall]
        rw [lines_MakeWords]
        show _ = ((ws.map fun w => (⟨w, [w]⟩ : ConcreteLine)).filter _)
        rw [map_filter_comm _ _ (fun w => chAt w i == ch) ws hcell]
  | bb q ih =>
    intro h ch i hi
    obtain ⟨hqi, hqw⟩ := WFb_bb_parts h
    simp only [filter]
    by_cases h0 : i = 0
    · subst h0
      rw [if_pos rfl]
      by_cases hb : ch = kBlocked
      · rw [if_pos hb]
        symm
        apply List.filter_eq_self.mpr
        intro l hl
        simp only [lines, List.mem_map] at hl
        obtain ⟨m, _, rfl⟩ := hl
        simp [cellAt, hb]
      · rw [if_neg hb]
        show ([] : List ConcreteLine) = _
        symm
        apply List.filter_eq_nil_iff.mpr
        intro l hl
        simp only [lines, List.mem_map] at hl
        obtain ⟨m, _, rfl⟩ := hl
        show ¬(((kBlocked :: m.Line).getD 0 0 == ch) = true)
        simp only [List.getD_cons_zero, beq_iff_eq]
        exact fun hcon => hb hcon.symm
    · rw [if_neg h0]
      rw [lines_buildBB]
      obtain ⟨j, rfl⟩ : ∃ j, i = j + 1 := ⟨i - 1, by omega⟩
      have hj : j < numLetters q := by
        simp only [numLetters] at hi; omega
      rw [show j + 1 - 1 = j from rfl]
      rw [ih hqw ch j hj]
      show _ = ((lines q).map _).filter _
      rw [map_filter_comm _ _ (fun m => cellAt m j == ch) (lines q)]
      intro m _
      rfl
  | ba q ih =>
    intro h ch i hi
    obtain ⟨hqi, hqw⟩ := WFb_ba_parts h
    simp only [filter]
    by_cases h0 : i = numLetters q
    · rw [if_pos h0]
      by_cases hb : ch = kBlocked
      · rw [if_pos hb]
        symm
        apply List.filter_eq_self.mpr
        intro l hl
        simp only [lines, List.mem_map] at hl
        obtain ⟨m, hm, rfl⟩ := hl
        have hlm := length_of_mem_lines q hqw m hm
        show ((m.Line ++ [kBlocked]).getD i 0 == ch) = true
        rw [h0, getD_append_right (by omega),
          show numLetters q - m.Line.length = 0 by omega]
        simp [hb]
      · rw [if_neg hb]
        show ([] : List ConcreteLine) = _
        symm
        apply List.filter_eq_nil_iff.mpr
        intro l hl
        simp only [lines, List.mem_map] at hl
        obtain ⟨m, hm, rfl⟩ := hl
        have hlm := length_of_mem_lines q hqw m hm
        show ¬((m.Line ++ [kBlocked]).getD i 0 == ch) = true
        rw [h0, getD_append_right (by omega),
          show numLetters q - m.Line.length = 0 by omega]
        simp only [List.getD_cons_zero, beq_iff_eq]
        exact fun hcon => hb hcon.symm
    · rw [if_neg h0]
      rw [lines_buildBA]
      have hj : i < numLetters q := by
        simp only [numLetters] at hi; omega
      rw [ih hqw ch i hj]
      show _ = ((lines q).map _).filter _
      rw [map_filter_comm _ _ (fun m => cellAt m i == ch) (lines q)]
      intro m hm
      have hlm := length_of_mem_lines q hqw m hm
      show ((m.Line ++ [kBlocked]).getD i 0 == ch) = (m.Line.getD i 0 == ch)
      rw [getD_append_left (by omega)]
  | bw f s ihf ihs =>
    intro h ch i hi
    obtain ⟨hfi, hsi, hfw, hsw⟩ := WFb_bw_parts h
    simp only [filter]
    by_cases h0 : i = numLetters f
    · rw [if_pos h0]
      by_cases hb : ch = kBlocked
      · rw [if_pos hb]
        symm
        apply List.filter_eq_self.mpr
        intro l hl
        simp only [lines, List.mem_flatMap, List.mem_map] at hl
        obtain ⟨a, ha, b, hb2, rfl⟩ := hl
        have hla := length_of_mem_lines f hfw a ha
        show ((a.Line ++ kBlocked :: b.Line).getD i 0 == ch) = true
        rw [h0, getD_append_right (by omega),
          show numLetters f - a.Line.length = 0 by omega]
        simp [hb]
      · rw [if_neg hb]
        show ([] : List ConcreteLine) = _
        symm
        apply List.filter_eq_nil_iff.mpr
        intro l hl
        simp only [lines, List.mem_flatMap, List.mem_map] at hl
        obtain ⟨a, ha, b, hb2, rfl⟩ := hl
        have hla := length_of_mem_lines f hfw a ha
        show ¬((a.Line ++ kBlocked :: b.Line).getD i 0 == ch) = true
        rw [h0, getD_append_right (by omega),
          show numLetters f - a.Line.length = 0 by omega]
        simp only [List.getD_cons_zero, beq_iff_eq]
        exact fun hcon => hb hcon.symm
    · rw [if_neg h0]
      by_cases hlt : i < numLetters f
      · rw [if_pos hlt]
        rw [lines_buildBW]
        rw [ihf hfw ch i hlt]
        show _ = (lines (.blockBetween f s)).filter _
        simp only [lines]
        refine flatMap_filter_left (fun a b => glueBetween a b) _ _ _ _ ?_
        intro a ha b _
        have hla := length_of_mem_lines f hfw a ha
        show ((a.Line ++ kBlocked :: b.Line).getD i 0 == ch) =
          (a.Line.getD i 0 == ch)
        rw [getD_append_left (by omega)]
      · rw [if_neg hlt]
        rw [lines_buildBW]
        have hgt : numLetters f < i := by omega
        have hj : i - numLetters f - 1 < numLetters s := by
          simp only [numLetters] at hi; omega
        rw [ihs hsw ch _ hj]
        show _ = (lines (.blockBetween f s)).filter _
        simp only [lines]
        refine flatMap_filter_right (fun a b => glueBetween a b) _ _ _ _ ?_
        intro a ha b _
        have hla := length_of_mem_lines f hfw a ha
        show ((a.Line ++ kBlocked :: b.Line).getD i 0 == ch) =
          (b.Line.getD (i - numLetters f - 1) 0 == ch)
        rw [getD_append_right (by omega)]
        obtain ⟨j, hij⟩ : ∃ j, i - a.Line.length = j + 1 :=
          ⟨i - a.Line.length - 1, by omega⟩
        rw [hij, show (kBlocked :: b.Line).getD (j + 1) 0 =
            b.Line.getD j 0 from rfl,
          show j = i - numLetters f - 1 by omega]
  | comp ps ih =>
    intro h ch i hi
    obtain ⟨hlen, hparts, hwf⟩ := WFb_compound_parts h
    have hichild : ∀ p ∈ ps, i < numLetters p := by
      intro p hp
      rw [(hparts p hp).2.2, ← numLetters_compound]
      exact hi
    have hchild : ∀ p ∈ ps,
        lines (filter p ch i) =
          (lines p).filter (fun l => cellAt l i == ch) := by
      intro p hp
      exact ih p hp (WFbList_mem hwf hp) ch i (hichild p hp)
    simp only [filter]
    by_cases hflag : (filterCollect ps ch i false).1 = true
    · rw [if_pos hflag]
      rw [lines_MakeCompound (plListSize (filterCollect ps ch i false).2) _ _
        (le_refl _)]
      show linesList _ = (lines (.compound ps)).filter _
      rw [filterCollect_lines _ ps ch i false hchild]
      rfl
    · rw [if_neg hflag]
      simp only [Bool.not_eq_true] at hflag
      have hunch := filterCollect_false ps ch i hflag
      show lines (.compound ps) = (lines (.compound ps)).filter _
      simp only [lines]
      symm
      apply List.filter_eq_self.mpr
      intro l hl
      obtain ⟨p, hp, hlp⟩ := mem_linesList.mp hl
      have : (lines p).filter (fun l => cellAt l i == ch) = lines p := by
        rw [← hchild p hp, hunch p hp]
      have := List.filter_eq_self.mp this
      exact this l hlp

/-! ### Length preservation of the restriction operations -/

theorem mem_filterCollect :
    ∀ ps ch i seen q, q ∈ (filterCollect ps ch i seen).2 →
      ∃ p ∈ ps, q = filter p ch i := by
  intro ps
  induction ps with
  | nil => intro ch i seen q hq; simp [filterCollect] at hq
  | cons p ps ih =>
    intro ch i seen q hq
    rw [filterCollect] at hq
    by_cases hc : (seen = false ∧ filter p ch i = p)
    · rw [if_pos hc] at hq
      have hq' : q ∈ p :: (filterCollect ps ch i false).2 := hq
      rcases List.mem_cons.mp hq' with rfl | hq2
      · exact ⟨q, List.mem_cons_self q ps, hc.2.symm⟩
      · obtain ⟨r, hr, hrr⟩ := ih ch i false q hq2
        exact ⟨r, List.mem_cons_of_mem p hr, hrr⟩
    · rw [if_neg hc] at hq
      have hq' : q ∈ (if isImpossible (filter p ch i) = true
          then (filterCollect ps ch i true).2
          else filter p ch i :: (filterCollect ps ch i true).2) := hq
      by_cases himp : isImpossible (filter p ch i) = true
      · rw [if_pos himp] at hq'
        obtain ⟨r, hr, hrr⟩ := ih ch i true q hq'
        exact ⟨r, List.mem_cons_of_mem p hr, hrr⟩
      · rw [if_neg himp] at hq'
        rcases List.mem_cons.mp hq' with rfl | hq2
        · exact ⟨p, List.mem_cons_self p ps, rfl⟩
        · obtain ⟨r, hr, hrr⟩ := ih ch i true q hq2
          exact ⟨r, List.mem_cons_of_mem p hr, hrr⟩

theorem mem_removeCollect :
    ∀ ps ws seen q, q ∈ (removeCollect ps ws seen).2 →
      ∃ p ∈ ps, q = removeWordOptions p ws := by
  intro ps
  induction ps with
  | nil => intro ws seen q hq; simp [removeCollect] at hq
  | cons p ps ih =>
    intro ws seen q hq
    rw [removeCollect] at hq
    by_cases hc : (seen = false ∧ removeWordOptions p ws = p)
    · rw [if_pos hc] at hq
      have hq' : q ∈ p :: (removeCollect ps ws false).2 := hq
      rcases List.mem_cons.mp hq' with rfl | hq2
      · exact ⟨q, List.mem_cons_self q ps, hc.2.symm⟩
      · obtain ⟨r, hr, hrr⟩ := ih ws false q hq2
        exact ⟨r, List.mem_cons_of_mem p hr, hrr⟩
    · rw [if_neg hc] at hq
      have hq' : q ∈ (if isImpossible (removeWordOptions p ws) = true
          then (removeCollect ps ws true).2
          else removeWordOptions p ws :: (removeCollect ps ws true).2) := hq
      by_cases himp : isImpossible (removeWordOptions p ws) = true
      · rw [if_pos himp] at hq'
        obtain ⟨r, hr, hrr⟩ := ih ws true q hq'
        exact ⟨r, List.mem_cons_of_mem p hr, hrr⟩
      · rw [if_neg himp] at hq'
        rcases List.mem_cons.mp hq' with rfl | hq2
        · exact ⟨p, List.mem_cons_self p ps, rfl⟩
        · obtain ⟨r, hr, hrr⟩ := ih ws true q hq2
          exact ⟨r, List.mem_cons_of_mem p hr, hrr⟩

/-- Members of the `Compound.FilterAny` loop output are filtered
children, or children of a filtered child that came out as a
`Compound` and was spliced in. -/
theorem mem_filterAnyCollect :
    ∀ ps cs i seen q, q ∈ (filterAnyCollect ps cs i seen).2 →
      ∃ p ∈ ps, (q = filterAny p cs i ∨
        ∃ inner, filterAny p cs i = .compound inner ∧ q ∈ inner) := by
  intro ps
  induction ps with
  | nil => intro cs i seen q hq; simp [filterAnyCollect] at hq
  | cons p ps ih =>
    intro cs i seen q hq
    rw [filterAnyCollect] at hq
    by_cases hc : (seen = false ∧ filterAny p cs i = p)
    · rw [if_pos hc] at hq
      have hq' : q ∈ p :: (filterAnyCollect ps cs i false).2 := hq
      rcases List.mem_cons.mp hq' with rfl | hq2
      · exact ⟨q, List.mem_cons_self q ps, Or.inl hc.2.symm⟩
      · obtain ⟨r, hr, hrr⟩ := ih cs i false q hq2
        exact ⟨r, List.mem_cons_of_mem p hr, hrr⟩
    · rw [if_neg hc] at hq
      have hq' : q ∈ (match filterAny p cs i with
          | .impossible _ => (filterAnyCollect ps cs i true).2
          | .compound inner => inner ++ (filterAnyCollect ps cs i true).2
          | other => other :: (filterAnyCollect ps cs i true).2) := hq
      cases hmatch : filterAny p cs i with
      | impossible m =>
        rw [hmatch] at hq'
        obtain ⟨r, hr, hrr⟩ := ih cs i true q hq'
        exact ⟨r, List.mem_cons_of_mem p hr, hrr⟩
      | compound inner =>
        rw [hmatch] at hq'
        rcases List.mem_append.mp hq' with hq2 | hq2
        · exact ⟨p, List.mem_cons_self p ps, Or.inr ⟨inner, hmatch, hq2⟩⟩
        · obtain ⟨r, hr, hrr⟩ := ih cs i true q hq2
          exact ⟨r, List.mem_cons_of_mem p hr, hrr⟩
      | definite l =>
        rw [hmatch] at hq'
        rcases List.mem_cons.mp hq' with rfl | hq2
        · exact ⟨p, List.mem_cons_self p ps, Or.inl hmatch.symm⟩
        · obtain ⟨r, hr, hrr⟩ := ih cs i true q hq2
          exact ⟨r, List.mem_cons_of_mem p hr, hrr⟩
      | words ws' oi' =>
        rw [hmatch] at hq'
        rcases List.mem_cons.mp hq' with rfl | hq2
        · exact ⟨p, List.mem_cons_self p ps, Or.inl hmatch.symm⟩
        · obtain ⟨r, hr, hrr⟩ := ih cs i true q hq2
          exact ⟨r, List.mem_cons_of_mem p hr, hrr⟩
      | blockBefore r0 =>
        rw [hmatch] at hq'
        rcases List.mem_cons.mp hq' with rfl | hq2
        · exact ⟨p, List.mem_cons_self p ps, Or.inl hmatch.symm⟩
        · obtain ⟨r, hr, hrr⟩ := ih cs i true q hq2
          exact ⟨r, List.mem_cons_of_mem p hr, hrr⟩
      | blockAfter r0 =>
        rw [hmatch] at hq'
        rcases List.mem_cons.mp hq' with rfl | hq2
        · exact ⟨p, List.mem_cons_self p ps, Or.inl hmatch.symm⟩
        · obtain ⟨r, hr, hrr⟩ := ih cs i true q hq2
          exact ⟨r, List.mem_cons_of_mem p hr, hrr⟩
      | blockBetween a b =>
        rw [hmatch] at hq'
        rcases List.mem_cons.mp hq' with rfl | hq2
        · exact ⟨p, List.mem_cons_self p ps, Or.inl hmatch.symm⟩
        · obtain ⟨r, hr, hrr⟩ := ih cs i true q hq2
          exact ⟨r, List.mem_cons_of_mem p hr, hrr⟩

theorem buildBB_spec {r : PossibleLines} {m : Nat}
    (hn : numLetters r = m) (hs : wfShape r = true) :
    numLetters (buildBB (1 + m) r) = 1 + m ∧
    wfShape (buildBB (1 + m) r) = true := by
  by_cases hi : isImpossible r = true
  · simp [buildBB, hi, numLetters, wfShape]
  · simp only [Bool.not_eq_true] at hi
    simp [buildBB, hi, numLetters, hn, wfShape, hs]

theorem buildBA_spec {r : PossibleLines} {m : Nat}
    (hn : numLetters r = m) (hs : wfShape r = true) :
    numLetters (buildBA (1 + m) r) = 1 + m ∧
    wfShape (buildBA (1 + m) r) = true := by
  by_cases hi : isImpossible r = true
  · simp [buildBA, hi, numLetters, wfShape]
  · simp only [Bool.not_eq_true] at hi
    simp [buildBA, hi, numLetters, hn, wfShape, hs]

theorem buildBW_spec {a b : PossibleLines} {m1 m2 : Nat}
    (ha : numLetters a = m1) (hb : numLetters b = m2)
    (hsa : wfShape a = true) (hsb : wfShape b = true) :
    numLetters (buildBW (1 + m1 + m2) a b) = 1 + m1 + m2 ∧
    wfShape (buildBW (1 + m1 + m2) a b) = true := by
  by_cases hi : (isImpossible a || isImpossible b) = true
  · simp [buildBW, hi, numLetters, wfShape]
  · simp only [Bool.or_eq_true, not_or, Bool.not_eq_true] at hi
    simp [buildBW, hi.1, hi.2, numLetters, ha, hb, wfShape, hsa, hsb]

/-- `Filter` preserves `NumLetters` and the compound-shape invariant. -/
theorem filter_preserves :
    ∀ p, WFb p = true → ∀ ch i, i < numLetters p →
      numLetters (filter p ch i) = numLetters p ∧
      wfShape (filter p ch i) = true := by
  intro p
  induction p using PossibleLines.inductionOn with
  | imp n => intro _ ch i _; exact ⟨rfl, rfl⟩
  | defn d =>
    intro _ ch i _
    simp only [filter]
    by_cases hc : ch = cellAt d i
    · rw [if_pos hc]; exact ⟨rfl, rfl⟩
    · rw [if_neg hc]; exact ⟨rfl, rfl⟩
  | word ws oi =>
    intro h ch i hi
    obtain ⟨hlen, hoi, hwords⟩ := WFb_words_parts h
    simp only [filter]
    by_cases hb : ch = kBlocked
    · rw [if_pos hb]; exact ⟨rfl, rfl⟩
    · rw [if_neg hb]
      by_cases hall :
          (decide (0 < ws.length) && ws.all fun w => chAt w i == ch) = true
      · rw [if_pos hall]; exact ⟨rfl, wfShape_of_WFb _ h⟩
      · rw [if_neg hall]
        constructor
        · show numLetters (MakeWords _ _ (wordsNL ws)) =
            numLetters (.words ws oi)
          have hlens : ∀ w ∈ ws.filter (fun w => chAt w i == ch),
              w.length = wordsNL ws :=
            fun w hw => (hwords w (List.mem_of_mem_filter hw)).1
          rw [numLetters_MakeWords hlens]
          rfl
        · exact wfShape_MakeWords _ _ _
  | bb q ih =>
    intro h ch i hi
    obtain ⟨hqi, hqw⟩ := WFb_bb_parts h
    simp only [filter]
    by_cases h0 : i = 0
    · rw [if_pos h0]
      by_cases hb : ch = kBlocked
      · rw [if_pos hb]; exact ⟨rfl, wfShape_of_WFb _ h⟩
      · rw [if_neg hb]
        exact ⟨by simp [numLetters], rfl⟩
    · rw [if_neg h0]
      have hj : i - 1 < numLetters q := by
        simp only [numLetters] at hi; omega
      have := ih hqw ch (i - 1) hj
      have hres := buildBB_spec this.1 this.2
      exact ⟨by rw [hres.1]; simp [numLetters], hres.2⟩
  | ba q ih =>
    intro h ch i hi
    obtain ⟨hqi, hqw⟩ := WFb_ba_parts h
    simp only [filter]
    by_cases h0 : i = numLetters q
    · rw [if_pos h0]
      by_cases hb : ch = kBlocked
      · rw [if_pos hb]; exact ⟨rfl, wfShape_of_WFb _ h⟩
      · rw [if_neg hb]
        exact ⟨by simp [numLetters], rfl⟩
    · rw [if_neg h0]
      have hj : i < numLetters q := by
        simp only [numLetters] at hi; omega
      have := ih hqw ch i hj
      have hres := buildBA_spec this.1 this.2
      exact ⟨by rw [hres.1]; simp [numLetters], hres.2⟩
  | bw f s ihf ihs =>
    intro h ch i hi
    obtain ⟨hfi, hsi, hfw, hsw⟩ := WFb_bw_parts h
    simp only [filter]
    by_cases h0 : i = numLetters f
    · rw [if_pos h0]
      by_cases hb : ch = kBlocked
      · rw [if_pos hb]; exact ⟨rfl, wfShape_of_WFb _ h⟩
      · rw [if_neg hb]
        exact ⟨by simp [numLetters], rfl⟩
    · rw [if_neg h0]
      by_cases hlt : i < numLetters f
      · rw [if_pos hlt]
        have := ihf hfw ch i hlt
        have hres := buildBW_spec this.1 rfl this.2 (wfShape_of_WFb _ hsw)
        exact ⟨by rw [hres.1]; simp [numLetters], hres.2⟩
      · rw [if_neg hlt]
        have hj : i - numLetters f - 1 < numLetters s := by
          simp only [numLetters] at hi; omega
        have := ihs hsw ch _ hj
        have hres := buildBW_spec (a := f) rfl this.1
          (wfShape_of_WFb _ hfw) this.2
        exact ⟨by rw [hres.1]; simp [numLetters], hres.2⟩
  | comp ps ih =>
    intro h ch i hi
    obtain ⟨hlen, hparts, hwf⟩ := WFb_compound_parts h
    simp only [filter]
    by_cases hflag : (filterCollect ps ch i false).1 = true
    · rw [if_pos hflag]
      have hmems : ∀ q ∈ (filterCollect ps ch i false).2,
          wfShape q = true ∧ numLetters q = numLettersHead ps := by
        intro q hq
        obtain ⟨p, hp, rfl⟩ := mem_filterCollect ps ch i false q hq
        have hip : i < numLetters p := by
          rw [(hparts p hp).2.2, ← numLetters_compound]; exact hi
        have := ih p hp (WFbList_mem hwf hp) ch i hip
        exact ⟨this.2, by rw [this.1]; exact (hparts p hp).2.2⟩
      have := MakeCompound_shape (plListSize (filterCollect ps ch i false).2)
        _ _ (le_refl _) hmems
      exact ⟨by rw [this.1, numLetters_compound], this.2⟩
    · rw [if_neg hflag]
      exact ⟨rfl, wfShape_of_WFb _ h⟩

/-- `FilterAny` preserves `NumLetters` and the shape invariant. -/
theorem filterAny_preserves :
    ∀ p, WFb p = true → ∀ cs i, i < numLetters p →
      numLetters (filterAny p cs i) = numLetters p ∧
      wfShape (filterAny p cs i) = true := by
  intro p
  induction p using PossibleLines.inductionOn with
  | imp n => intro _ cs i _; exact ⟨rfl, rfl⟩
  | defn d =>
    intro _ cs i _
    simp only [filterAny]
    by_cases hfull : cs.IsFull = true
    · rw [if_pos hfull]; exact ⟨rfl, rfl⟩
    · rw [if_neg hfull]
      by_cases hc : cs.ContainsB (cellAt d i) = true
      · rw [if_pos hc]; exact ⟨rfl, rfl⟩
      · rw [if_neg hc]; exact ⟨rfl, rfl⟩
  | word ws oi =>
    intro h cs i hi
    obtain ⟨hlen, hoi, hwords⟩ := WFb_words_parts h
    simp only [filterAny]
    by_cases hsc : filterAnyShortcut cs = true
    · rw [if_pos hsc]; exact ⟨rfl, rfl⟩
    · rw [if_neg hsc]
      by_cases hall :
          (!(ws.any fun w => !(cs.ContainsB (chAt w i)))) = true
      · rw [if_pos hall]; exact ⟨rfl, rfl⟩
      · rw [if_neg hall]
        constructor
        · show numLetters (MakeWords _ _ (wordsNL ws)) =
            numLetters (.words ws oi)
          have hlens : ∀ w ∈ ws.filter (fun w => cs.ContainsB (chAt w i)),
              w.length = wordsNL ws :=
            fun w hw => (hwords w (List.mem_of_mem_filter hw)).1
          rw [numLetters_MakeWords hlens]
          rfl
        · exact wfShape_MakeWords _ _ _
  | bb q ih =>
    intro h cs i hi
    obtain ⟨hqi, hqw⟩ := WFb_bb_parts h
    simp only [filterAny]
    by_cases hfull : cs.IsFull = true
    · rw [if_pos hfull]; exact ⟨rfl, wfShape_of_WFb _ h⟩
    · rw [if_neg hfull]
      by_cases h0 : i = 0
      · rw [if_pos h0]
        by_cases hb : cs.ContainsB kBlocked = true
        · rw [if_pos hb]; exact ⟨rfl, wfShape_of_WFb _ h⟩
        · rw [if_neg hb]
          exact ⟨by simp [numLetters], rfl⟩
      · rw [if_neg h0]
        have hj : i - 1 < numLetters q := by
          simp only [numLetters] at hi; omega
        have := ih hqw cs (i - 1) hj
        have hres := buildBB_spec this.1 this.2
        exact ⟨by rw [hres.1]; simp [numLetters], hres.2⟩
  | ba q ih =>
    intro h cs i hi
    obtain ⟨hqi, hqw⟩ := WFb_ba_parts h
    simp only [filterAny]
    by_cases hfull : cs.IsFull = true
    · rw [if_pos hfull]; exact ⟨rfl, wfShape_of_WFb _ h⟩
    · rw [if_neg hfull]
      by_cases h0 : i = numLetters q
      · rw [if_pos h0]
        by_cases hb : cs.ContainsB kBlocked = true
        · rw [if_pos hb]; exact ⟨rfl, wfShape_of_WFb _ h⟩
        · rw [if_neg hb]
          exact ⟨by simp [numLetters], rfl⟩
      · rw [if_neg h0]
        have hj : i < numLetters q := by
          simp only [numLetters] at hi; omega
        have := ih hqw cs i hj
        have hres := buildBA_spec this.1 this.2
        exact ⟨by rw [hres.1]; simp [numLetters], hres.2⟩
  | bw f s ihf ihs =>
    intro h cs i hi
    obtain ⟨hfi, hsi, hfw, hsw⟩ := WFb_bw_parts h
    simp only [filterAny]
    by_cases hfull : cs.IsFull = true
    · rw [if_pos hfull]; exact ⟨rfl, wfShape_of_WFb _ h⟩
    · rw [if_neg hfull]
      by_cases h0 : i = numLetters f
      · rw [if_pos h0]
        by_cases hb : cs.ContainsB kBlocked = true
        · rw [if_pos hb]; exact ⟨rfl, wfShape_of_WFb _ h⟩
        · rw [if_neg hb]
          exact ⟨by simp [numLetters], rfl⟩
      · rw [if_neg h0]
        by_cases hlt : i < numLetters f
        · rw [if_pos hlt]
          have := ihf hfw cs i hlt
          have hres := buildBW_spec this.1 rfl this.2 (wfShape_of_WFb _ hsw)
          exact ⟨by rw [hres.1]; simp [numLetters], hres.2⟩
        · rw [if_neg hlt]
          have hj : i - numLetters f - 1 < numLetters s := by
            simp only [numLetters] at hi; omega
          have := ihs hsw cs _ hj
          have hres := buildBW_spec (a := f) rfl this.1
            (wfShape_of_WFb _ hfw) this.2
          exact ⟨by rw [hres.1]; simp [numLetters], hres.2⟩
  | comp ps ih =>
    intro h cs i hi
    obtain ⟨hlen, hparts, hwf⟩ := WFb_compound_parts h
    simp only [filterAny]
    by_cases hfull : cs.IsFull = true
    · rw [if_pos hfull]; exact ⟨rfl, wfShape_of_WFb _ h⟩
    · rw [if_neg hfull]
      have hmems : ∀ q ∈ (filterAnyCollect ps cs i false).2,
          wfShape q = true ∧ numLetters q = numLettersHead ps := by
        intro q hq
        obtain ⟨p, hp, hcase⟩ := mem_filterAnyCollect ps cs i false q hq
        have hip : i < numLetters p := by
          rw [(hparts p hp).2.2, ← numLetters_compound]; exact hi
        have hpres := ih p hp (WFbList_mem hwf hp) cs i hip
        rcases hcase with rfl | ⟨inner, hinner, hqin⟩
        · exact ⟨hpres.2, by rw [hpres.1]; exact (hparts p hp).2.2⟩
        · have hshape : wfShape (.compound inner) = true := by
            rw [← hinner]; exact hpres.2
          have hq2 := wfShape_compound_parts hshape q hqin
          refine ⟨hq2.1, ?_⟩
          rw [hq2.2, ← hinner, hpres.1]
          exact (hparts p hp).2.2
      by_cases hflag : (!(filterAnyCollect ps cs i false).1) = true
      · rw [if_pos hflag]; exact ⟨rfl, wfShape_of_WFb _ h⟩
      · rw [if_neg hflag]
        rcases hout : (filterAnyCollect ps cs i false).2 with
          _ | ⟨x, _ | ⟨y, rest⟩⟩
        · refine ⟨?_, rfl⟩
          show numLetters (PossibleLines.impossible (numLettersHead ps)) = _
          rw [numLetters_compound]
          rfl
        · have := hmems x (by rw [hout]; exact List.mem_singleton_self x)
          refine ⟨?_, ?_⟩
          · show numLetters x = _
            rw [this.2, numLetters_compound]
          · show wfShape x = true
            exact this.1
        · have hmems2 : ∀ q ∈ x :: y :: rest,
              wfShape q = true ∧ numLetters q = numLettersHead ps := by
            intro q hq
            apply hmems
            rw [hout]
            exact hq
          have := MakeCompound_shape (plListSize (x :: y :: rest)) _ _
            (le_refl _) hmems2
          refine ⟨?_, ?_⟩
          · show numLetters (MakeCompound (x :: y :: rest)
              (numLettersHead ps)) = _
            rw [this.1, numLetters_compound]
          · show wfShape (MakeCompound (x :: y :: rest)
              (numLettersHead ps)) = true
            exact this.2

/-- `RemoveWordOptions` preserves `NumLetters` and the shape
invariant. -/
theorem remove_preserves :
    ∀ p, WFb p = true → ∀ ws,
      numLetters (removeWordOptions p ws) = numLetters p ∧
      wfShape (removeWordOptions p ws) = true := by
  intro p
  induction p using PossibleLines.inductionOn with
  | imp n => intro _ ws; exact ⟨rfl, rfl⟩
  | defn d =>
    intro _ ws
    simp only [removeWordOptions]
    by_cases hc : (ws.any fun w =>
        decide (w.length = d.Line.length) && d.Words.contains w) = true
    · rw [if_pos hc]; exact ⟨rfl, rfl⟩
    · rw [if_neg hc]; exact ⟨rfl, rfl⟩
  | word aw oi =>
    intro h ws
    obtain ⟨hlen, hoi, hwords⟩ := WFb_words_parts h
    simp only [removeWordOptions]
    by_cases hc : (ws.any fun w =>
        decide (w.length = wordsNL aw) && aw.contains w) = true
    · rw [if_pos hc]
      constructor
      · show numLetters (MakeWords _ _ (wordsNL aw)) =
          numLetters (.words aw oi)
        have hlens : ∀ w ∈ aw.filter (fun p => !(ws.contains p)),
            w.length = wordsNL aw :=
          fun w hw => (hwords w (List.mem_of_mem_filter hw)).1
        rw [numLetters_MakeWords hlens]
        rfl
      · exact wfShape_MakeWords _ _ _
    · rw [if_neg hc]; exact ⟨rfl, rfl⟩
  | bb q ih =>
    intro h ws
    obtain ⟨hqi, hqw⟩ := WFb_bb_parts h
    simp only [removeWordOptions]
    have := ih hqw ws
    have hres := buildBB_spec this.1 this.2
    exact ⟨by rw [hres.1]; simp [numLetters], hres.2⟩
  | ba q ih =>
    intro h ws
    obtain ⟨hqi, hqw⟩ := WFb_ba_parts h
    simp only [removeWordOptions]
    have := ih hqw ws
    have hres := buildBA_spec this.1 this.2
    exact ⟨by rw [hres.1]; simp [numLetters], hres.2⟩
  | bw f s ihf ihs =>
    intro h ws
    obtain ⟨hfi, hsi, hfw, hsw⟩ := WFb_bw_parts h
    simp only [removeWordOptions]
    have h1 := ihf hfw ws
    have h2 := ihs hsw ws
    have hres := buildBW_spec h1.1 h2.1 h1.2 h2.2
    exact ⟨by rw [hres.1]; simp [numLetters], hres.2⟩
  | comp ps ih =>
    intro h ws
    obtain ⟨hlen, hparts, hwf⟩ := WFb_compound_parts h
    simp only [removeWordOptions]
    by_cases hflag : (removeCollect ps ws false).1 = true
    · rw [if_pos hflag]
      have hmems : ∀ q ∈ (removeCollect ps ws false).2,
          wfShape q = true ∧ numLetters q = numLettersHead ps := by
        intro q hq
        obtain ⟨p, hp, rfl⟩ := mem_removeCollect ps ws false q hq
        have := ih p hp (WFbList_mem hwf hp) ws
        exact ⟨this.2, by rw [this.1]; exact (hparts p hp).2.2⟩
      have := MakeCompound_shape (plListSize (removeCollect ps ws false).2)
        _ _ (le_refl _) hmems
      exact ⟨by rw [this.1, numLetters_compound], this.2⟩
    · rw [if_neg hflag]
      exact ⟨rfl, wfShape_of_WFb _ h⟩

/-! ### Idempotence of `RemoveWordOptions` -/

theorem removeCollect_false :
    ∀ ps ws, (removeCollect ps ws false).1 = false →
      ∀ p ∈ ps, removeWordOptions p ws = p := by
  intro ps
  induction ps with
  | nil => intro ws _ p hp; cases hp
  | cons p ps ih =>
    intro ws hflag q hq
    rw [removeCollect] at hflag
    by_cases hc : (false = false ∧ removeWordOptions p ws = p)
    · rw [if_pos hc] at hflag
      rcases List.mem_cons.mp hq with rfl | hq2
      · exact hc.2
      · exact ih ws hflag q hq2
    · rw [if_neg hc] at hflag
      simp at hflag

theorem removeCollect_flag_of_unchanged :
    ∀ ps ws, (∀ p ∈ ps, removeWordOptions p ws = p) →
      (removeCollect ps ws false).1 = false := by
  intro ps
  induction ps with
  | nil => intro ws _; rfl
  | cons p ps ih =>
    intro ws h
    rw [removeCollect]
    rw [if_pos ⟨rfl, h p (List.mem_cons_self p ps)⟩]
    exact ih ws (fun q hq => h q (List.mem_cons_of_mem p hq))

theorem removeCollect_nonimp :
    ∀ ps ws seen, (∀ p ∈ ps, isImpossible p = false) →
      ∀ q ∈ (removeCollect ps ws seen).2, isImpossible q = false := by
  intro ps
  induction ps with
  | nil => intro ws seen _ q hq; simp [removeCollect] at hq
  | cons p ps ih =>
    intro ws seen h q hq
    rw [removeCollect] at hq
    by_cases hc : (seen = false ∧ removeWordOptions p ws = p)
    · rw [if_pos hc] at hq
      have hq' : q ∈ p :: (removeCollect ps ws false).2 := hq
      rcases List.mem_cons.mp hq' with rfl | hq2
      · exact h q (List.mem_cons_self q ps)
      · exact ih ws false (fun r hr => h r (List.mem_cons_of_mem p hr)) q hq2
    · rw [if_neg hc] at hq
      have hq' : q ∈ (if isImpossible (removeWordOptions p ws) = true
          then (removeCollect ps ws true).2
          else removeWordOptions p ws :: (removeCollect ps ws true).2) := hq
      by_cases himp : isImpossible (removeWordOptions p ws) = true
      · rw [if_pos himp] at hq'
        exact ih ws true (fun r hr => h r (List.mem_cons_of_mem p hr)) q hq'
      · rw [if_neg himp] at hq'
        rcases List.mem_cons.mp hq' with rfl | hq2
        · simpa using himp
        · exact ih ws true (fun r hr => h r (List.mem_cons_of_mem p hr)) q hq2

theorem isCompoundB_buildBB (n : Nat) (r : PossibleLines) :
    isCompoundB (buildBB n r) = false := by
  by_cases h : isImpossible r = true <;> simp [buildBB, h, isCompoundB]

theorem isCompoundB_buildBA (n : Nat) (r : PossibleLines) :
    isCompoundB (buildBA n r) = false := by
  by_cases h : isImpossible r = true <;> simp [buildBA, h, isCompoundB]

theorem isCompoundB_buildBW (n : Nat) (a b : PossibleLines) :
    isCompoundB (buildBW n a b) = false := by
  by_cases h : (isImpossible a || isImpossible b) = true <;>
    simp [buildBW, h, isCompoundB]

/-- `RemoveWordOptions` never turns a non-`Compound` value into a
`Compound`. -/
theorem isCompoundB_remove {p : PossibleLines} (h : isCompoundB p = false)
    (ws : List Word) : isCompoundB (removeWordOptions p ws) = false := by
  cases p with
  | impossible n => exact h
  | definite l =>
    simp only [removeWordOptions]
    by_cases hc : (ws.any fun w =>
        decide (w.length = l.Line.length) && l.Words.contains w) = true
    · rw [if_pos hc]; rfl
    · rw [if_neg hc]; rfl
  | words aw oi =>
    simp only [removeWordOptions]
    by_cases hc : (ws.any fun w =>
        decide (w.length = wordsNL aw) && aw.contains w) = true
    · rw [if_pos hc]; exact isCompoundB_MakeWords _ _ _
    · rw [if_neg hc]; rfl
  | blockBefore q => exact isCompoundB_buildBB _ _
  | blockAfter q => exact isCompoundB_buildBA _ _
  | blockBetween f s => exact isCompoundB_buildBW _ _ _
  | compound ps => simp [isCompoundB] at h

/-- `contains` matches membership for word lists. -/
theorem contains_iff {l : List Word} {a : Word} :
    l.contains a = true ↔ a ∈ l := by
  simp [List.contains, List.elem_iff]

/-- Removing again from a word list that already excludes every member
of `ws` changes nothing. -/
theorem remove_MakeWords_excluded {kept : List Word} {ws : List Word}
    (h : ∀ w ∈ kept, ws.contains w = false) (cnt n : Nat) :
    removeWordOptions (MakeWords kept cnt n) ws = MakeWords kept cnt n := by
  match kept with
  | [] => rfl
  | [w] =>
    show removeWordOptions (.definite ⟨w, [w]⟩) ws = _
    simp only [removeWordOptions]
    rw [if_neg]
    · rfl
    · intro hcon
      obtain ⟨w0, hw0, hc2⟩ := List.any_eq_true.mp hcon
      obtain ⟨_, hc3⟩ := (Bool.and_eq_true _ _).mp hc2
      have hw0w : w0 = w := by simpa using contains_iff.mp hc3
      subst hw0w
      have h1 := h w0 (List.mem_singleton_self w0)
      rw [contains_iff.mpr hw0] at h1
      cases h1
  | a :: b :: t =>
    show removeWordOptions (.words (a :: b :: t) cnt) ws = _
    simp only [removeWordOptions]
    rw [if_neg]
    · rfl
    · intro hcon
      obtain ⟨w0, hw0, hc2⟩ := List.any_eq_true.mp hcon
      obtain ⟨_, hc3⟩ := (Bool.and_eq_true _ _).mp hc2
      have hmem : w0 ∈ a :: b :: t := contains_iff.mp hc3
      have h1 := h w0 hmem
      rw [contains_iff.mpr hw0] at h1
      cases h1

/-- Removing from a `MakeCompound` of children that the removal leaves
unchanged returns the value unchanged. -/
theorem remove_MakeCompound_clean (ws : List Word) :
    ∀ lst n,
      (∀ q ∈ lst, isImpossible q = false ∧ isCompoundB q = false ∧
        removeWordOptions q ws = q) →
      removeWordOptions (MakeCompound lst n) ws = MakeCompound lst n := by
  intro lst n hprop
  rw [MakeCompound]
  by_cases h0 : lst.length = 0
  · rw [if_pos h0]; rfl
  · rw [if_neg h0]
    by_cases h1 : lst.length = 1
    · rw [if_pos h1]
      obtain ⟨p, rfl⟩ := List.length_eq_one.mp h1
      exact (hprop p (List.mem_singleton_self p)).2.2
    · rw [if_neg h1]
      have hany : lst.any (fun p => isImpossible p || isCompoundB p) = false := by
        rw [List.any_eq_false]
        intro p hp
        simp [(hprop p hp).1, (hprop p hp).2.1]
      rw [dif_neg (by rw [hany]; exact Bool.false_ne_true)]
      show removeWordOptions (.compound lst) ws = .compound lst
      simp only [removeWordOptions]
      rw [if_neg]
      rw [removeCollect_flag_of_unchanged lst ws
        (fun q hq => (hprop q hq).2.2)]
      exact Bool.false_ne_true

/-- C7: RemoveWordOptions is idempotent: for every well-formed value and
word list, the second application returns the first application's result
unchanged (so in particular it denotes the same set of lines). -/
theorem remove_idempotent :
    ∀ p, WFb p = true → ∀ ws,
      removeWordOptions (removeWordOptions p ws) ws =
        removeWordOptions p ws := by
  intro p
  induction p using PossibleLines.inductionOn with
  | imp n => intro _ ws; rfl
  | defn d =>
    intro _ ws
    simp only [removeWordOptions]
    by_cases hc : (ws.any fun w =>
        decide (w.length = d.Line.length) && d.Words.contains w) = true
    · rw [if_pos hc]; rfl
    · rw [if_neg hc]
      simp only [removeWordOptions]
      rw [if_neg hc]
  | word aw oi =>
    intro h ws
    simp only [removeWordOptions]
    by_cases hc : (ws.any fun w =>
        decide (w.length = wordsNL aw) && aw.contains w) = true
    · rw [if_pos hc]
      apply remove_MakeWords_excluded
      intro w hw
      have := List.mem_filter.mp hw
      simpa using this.2
    · rw [if_neg hc]
      simp only [removeWordOptions]
      rw [if_neg hc]
  | bb q ih =>
    intro h ws
    obtain ⟨hqi, hqw⟩ := WFb_bb_parts h
    simp only [removeWordOptions]
    by_cases himp : isImpossible (removeWordOptions q ws) = true
    · rw [show buildBB (1 + numLetters q) (removeWordOptions q ws) =
          .impossible (1 + numLetters q) by simp [buildBB, himp]]
      rfl
    · rw [show buildBB (1 + numLetters q) (removeWordOptions q ws) =
          .blockBefore (removeWordOptions q ws) by
        simp only [Bool.not_eq_true] at himp
        simp [buildBB, himp]]
      simp only [removeWordOptions]
      rw [ih hqw ws]
      simp only [Bool.not_eq_true] at himp
      simp [buildBB, himp]
  | ba q ih =>
    intro h ws
    obtain ⟨hqi, hqw⟩ := WFb_ba_parts h
    simp only [removeWordOptions]
    by_cases himp : isImpossible (removeWordOptions q ws) = true
    · rw [show buildBA (1 + numLetters q) (removeWordOptions q ws) =
          .impossible (1 + numLetters q) by simp [buildBA, himp]]
      rfl
    · rw [show buildBA (1 + numLetters q) (removeWordOptions q ws) =
          .blockAfter (removeWordOptions q ws) by
        simp only [Bool.not_eq_true] at himp
        simp [buildBA, himp]]
      simp only [removeWordOptions]
      rw [ih hqw ws]
      simp only [Bool.not_eq_true] at himp
      simp [buildBA, himp]
  | bw f s ihf ihs =>
    intro h ws
    obtain ⟨hfi, hsi, hfw, hsw⟩ := WFb_bw_parts h
    simp only [removeWordOptions]
    by_cases himp : (isImpossible (removeWordOptions f ws) ||
        isImpossible (removeWordOptions s ws)) = true
    · rw [show buildBW (1 + numLetters f + numLetters s)
          (removeWordOptions f ws) (removeWordOptions s ws) =
          .impossible (1 + numLetters f + numLetters s) by
        simp [buildBW, himp]]
      rfl
    · simp only [Bool.or_eq_true, not_or, Bool.not_eq_true] at himp
      rw [show buildBW (1 + numLetters f + numLetters s)
          (removeWordOptions f ws) (removeWordOptions s ws) =
          .blockBetween (removeWordOptions f ws) (removeWordOptions s ws) by
        simp [buildBW, himp.1, himp.2]]
      simp only [removeWordOptions]
      rw [ihf hfw ws, ihs hsw ws]
      have hn1 := (remove_preserves f hfw ws).1
      have hn2 := (remove_preserves s hsw ws).1
      rw [hn1, hn2]
      simp [buildBW, himp.1, himp.2]
  | comp ps ih =>
    intro h ws
    obtain ⟨hlen, hparts, hwf⟩ := WFb_compound_parts h
    simp only [removeWordOptions]
    by_cases hflag : (removeCollect ps ws false).1 = true
    · rw [if_pos hflag]
      apply remove_MakeCompound_clean
      intro q hq
      have hnonimp := removeCollect_nonimp ps ws false
        (fun p hp => (hparts p hp).1) q hq
      obtain ⟨p, hp, rfl⟩ := mem_removeCollect ps ws false q hq
      refine ⟨hnonimp, ?_, ?_⟩
      · exact isCompoundB_remove (hparts p hp).2.1 ws
      · exact ih p hp (WFbList_mem hwf hp) ws
    · rw [if_neg hflag]
      simp only [removeWordOptions]
      rw [if_neg hflag]

/-! ### `MakeChoice` splits the set without losing lines -/

theorem perm_flatMap_congr {α β : Type} (A B : α → List β) :
    ∀ L : List α, (∀ x ∈ L, (A x).Perm (B x)) →
      (L.flatMap A).Perm (L.flatMap B) := by
  intro L
  induction L with
  | nil => intro _; exact List.Perm.refl _
  | cons x L ih =>
    intro h
    simp only [List.flatMap_cons]
    exact (h x (List.mem_cons_self x L)).append
      (ih (fun y hy => h y (List.mem_cons_of_mem x hy)))

theorem flatMap_append_perm {α β : Type} (A B : α → List β) :
    ∀ L : List α,
      (L.flatMap A ++ L.flatMap B).Perm (L.flatMap (fun x => A x ++ B x)) := by
  intro L
  induction L with
  | nil => exact List.Perm.refl _
  | cons x L ih =>
    simp only [List.flatMap_cons, List.append_assoc]
    apply List.Perm.append_left
    refine List.Perm.trans (List.perm_append_comm_assoc _ _ _) ?_
    exact List.Perm.append_left _ ih

theorem splitIdxGo_bounds :
    ∀ (rest : List PossibleLines) (half acc : Int) (i len : Nat),
      2 ≤ len →
      1 ≤ splitIdxGo rest half acc i len ∧
        splitIdxGo rest half acc i len < len := by
  intro rest
  induction rest with
  | nil =>
    intro half acc i len hlen
    rw [splitIdxGo]
    exact ⟨le_refl 1, by omega⟩
  | cons p ps ih =>
    intro half acc i len hlen
    rw [splitIdxGo]
    by_cases hc : (acc + maxPossibilities p ≥ half ∧ i + 1 < len)
    · rw [if_pos hc]
      exact ⟨by omega, hc.2⟩
    · rw [if_neg hc]
      exact ih half _ (i + 1) len hlen

theorem computeSplitIdx_bounds {ps : List PossibleLines}
    (h : 2 ≤ ps.length) :
    1 ≤ computeSplitIdx ps ∧ computeSplitIdx ps < ps.length :=
  splitIdxGo_bounds ps _ 0 0 ps.length h

theorem maxPossibilitiesList_pos {ps : List PossibleLines}
    (hne : ps ≠ []) (h : ∀ p ∈ ps, 1 ≤ maxPossibilities p) :
    1 ≤ maxPossibilitiesList ps := by
  cases ps with
  | nil => cases hne rfl
  | cons p rest =>
    have h1 := h p (List.mem_cons_self p rest)
    have h2 := maxPossibilitiesList_nonneg rest
    simp only [maxPossibilitiesList]
    omega

/-- `MakeChoice` on a well-formed value with more than one possibility
succeeds, both halves are non-empty, and together they carry exactly
the original lines. -/
theorem makeChoice_spec :
    ∀ p, WFb p = true → 1 < maxPossibilities p →
      ∃ a b, makeChoice p = some (a, b) ∧
        1 ≤ maxPossibilities a ∧ 1 ≤ maxPossibilities b ∧
        (lines a ++ lines b).Perm (lines p) := by
  intro p
  induction p using PossibleLines.inductionOn with
  | imp n => intro _ hmp; simp [maxPossibilities] at hmp
  | defn d => intro _ hmp; simp [maxPossibilities] at hmp
  | word ws oi =>
    intro h hmp
    have hlen : 2 ≤ ws.length := by
      simp only [maxPossibilities] at hmp
      exact_mod_cast hmp
    simp only [makeChoice]
    rw [if_neg (by omega)]
    refine ⟨_, _, rfl, ?_, ?_, ?_⟩
    · rw [maxPossibilities_MakeWords, List.length_take]
      have : 1 ≤ min (ws.length / 2) ws.length := by omega
      exact_mod_cast this
    · rw [maxPossibilities_MakeWords, List.length_drop]
      have : 1 ≤ ws.length - ws.length / 2 := by omega
      exact_mod_cast this
    · rw [lines_MakeWords, lines_MakeWords]
      rw [← List.map_append, List.take_append_drop]
      exact List.Perm.refl _
  | bb q ih =>
    intro h hmp
    obtain ⟨hqi, hqw⟩ := WFb_bb_parts h
    have hmq : 1 < maxPossibilities q := by
      simpa [maxPossibilities] using hmp
    obtain ⟨a, b, hsome, ha, hb, hperm⟩ := ih hqw hmq
    refine ⟨.blockBefore a, .blockBefore b, ?_, ?_, ?_, ?_⟩
    · simp [makeChoice, hsome]
    · simpa [maxPossibilities] using ha
    · simpa [maxPossibilities] using hb
    · simp only [lines, ← List.map_append]
      exact hperm.map _
  | ba q ih =>
    intro h hmp
    obtain ⟨hqi, hqw⟩ := WFb_ba_parts h
    have hmq : 1 < maxPossibilities q := by
      simpa [maxPossibilities] using hmp
    obtain ⟨a, b, hsome, ha, hb, hperm⟩ := ih hqw hmq
    refine ⟨.blockAfter a, .blockAfter b, ?_, ?_, ?_, ?_⟩
    · simp [makeChoice, hsome]
    · simpa [maxPossibilities] using ha
    · simpa [maxPossibilities] using hb
    · simp only [lines, ← List.map_append]
      exact hperm.map _
  | bw f s ihf ihs =>
    intro h hmp
    obtain ⟨hfi, hsi, hfw, hsw⟩ := WFb_bw_parts h
    have hf1 := maxPossibilities_pos f hfw hfi
    have hs1 := maxPossibilities_pos s hsw hsi
    simp only [maxPossibilities] at hmp
    by_cases hgt : maxPossibilities f > maxPossibilities s
    · have hmf : 1 < maxPossibilities f := by nlinarith
      obtain ⟨a, b, hsome, ha, hb, hperm⟩ := ihf hfw hmf
      refine ⟨.blockBetween a s, .blockBetween b s, ?_, ?_, ?_, ?_⟩
      · simp [makeChoice, hgt, hsome]
      · simp only [maxPossibilities]; nlinarith
      · simp only [maxPossibilities]; nlinarith
      · simp only [lines]
        rw [← List.flatMap_append]
        exact hperm.flatMap_right _
    · have hms : 1 < maxPossibilities s := by nlinarith
      obtain ⟨a, b, hsome, ha, hb, hperm⟩ := ihs hsw hms
      refine ⟨.blockBetween f a, .blockBetween f b, ?_, ?_, ?_, ?_⟩
      · simp [makeChoice, hgt, hsome]
      · simp only [maxPossibilities]; nlinarith
      · simp only [maxPossibilities]; nlinarith
      · simp only [lines]
        refine List.Perm.trans (flatMap_append_perm _ _ _) ?_
        refine perm_flatMap_congr _ _ _ ?_
        intro x _
        rw [← List.map_append]
        exact hperm.map _
  | comp ps ih =>
    intro h hmp
    obtain ⟨hlen, hparts, hwf⟩ := WFb_compound_parts h
    have hmax : 1 < maxPossibilitiesList ps := by
      simpa [maxPossibilities] using hmp
    obtain ⟨hs1, hs2⟩ := computeSplitIdx_bounds hlen
    simp only [makeChoice]
    rw [if_neg (by omega), if_neg (by omega)]
    have hchild1 : ∀ p ∈ ps, 1 ≤ maxPossibilities p := by
      intro p hp
      exact maxPossibilities_pos p (WFbList_mem hwf hp) (hparts p hp).1
    refine ⟨_, _, rfl, ?_, ?_, ?_⟩
    · rw [maxPossibilities_MakeCompound
        (plListSize (ps.take (computeSplitIdx ps))) _ _ (le_refl _)]
      apply maxPossibilitiesList_pos
      · intro hcon
        have := congrArg List.length hcon
        simp only [List.length_take, List.length_nil] at this
        omega
      · intro p hp
        exact hchild1 p (List.take_subset _ _ hp)
    · rw [maxPossibilities_MakeCompound
        (plListSize (ps.drop (computeSplitIdx ps))) _ _ (le_refl _)]
      apply maxPossibilitiesList_pos
      · intro hcon
        have := congrArg List.length hcon
        simp only [List.length_drop, List.length_nil] at this
        omega
      · intro p hp
        exact hchild1 p (List.drop_subset _ _ hp)
    · rw [lines_MakeCompound (plListSize (ps.take (computeSplitIdx ps))) _ _
        (le_refl _),
        lines_MakeCompound (plListSize (ps.drop (computeSplitIdx ps))) _ _
        (le_refl _)]
      rw [← linesList_append, List.take_append_drop]
      exact List.Perm.refl _

end XWGo

namespace XWGen

/-- `GenHelper.BLOCKED`, the blocked cell of the C# generator. -/
def BLOCKED : Char := Char.ofNat 96

/-- `ScoredLine` from Gen.cs: a candidate line with its score data. -/
structure ScoredLine where
  Line : List Char
  MaxLength : Nat
  NumLetters : Nat
  NumLettersOfCommonWords : Nat
deriving DecidableEq

instance : Inhabited ScoredLine := ⟨⟨[], 0, 0, 0⟩⟩

/-- `Direction` from Gen.cs. -/
inductive Direction where
  | Horizontal
  | Vertical
deriving DecidableEq

/-- `GridState`: per-column and per-row candidate lists. -/
structure GridState where
  Down : List (List ScoredLine)
  Across : List (List ScoredLine)
deriving DecidableEq

/-- `FinalGrid`: one decided line per column and per row. -/
structure FinalGrid where
  Down : List ScoredLine
  Across : List ScoredLine
deriving DecidableEq

/-! ### The pattern enumerator `AllPossibleLines`

`AllPossibleLines(maxLength)` is a lazy iterator.  Its yield clauses
are modelled as an inductive membership relation: a line is in
`APLYields cfg L` exactly when one of the method's `yield return`
statements produces it.  Note that the two-segment loop is bounded by
`gridSize`, not by `maxLength`, exactly as in the source
(`for (int i = 3; i < gridSize - 3; ++i)` with
`secondLength = gridSize - (i + 1)`), and that the recursion it
performs re-enters `AllPossibleLines` at lengths that may exceed
`maxLength`. -/

/-- The dictionary tables `commonWordsByLength` / `obscureWordsByLength`
and the grid size captured by the enumerator. -/
structure APLConfig where
  gridSize : Nat
  commonByLen : Nat → List (List Char)
  obscureByLen : Nat → List (List Char)

/-- The yield relation of `AllPossibleLines`: `APLYields cfg L line`
holds when enumerating `AllPossibleLines(L)` yields a `ScoredLine`
whose text is `line`. -/
inductive APLYields (cfg : APLConfig) : Nat → List Char → Prop where
  | common : ∀ L w, 3 ≤ L → L ≤ cfg.gridSize →
      w ∈ cfg.commonByLen L → APLYields cfg L w
  | obscure : ∀ L w, 3 ≤ L → L ≤ cfg.gridSize →
      w ∈ cfg.obscureByLen L → APLYields cfg L w
  | blockBefore : ∀ L l, 3 ≤ L → L ≤ cfg.gridSize →
      APLYields cfg (L - 1) l → APLYields cfg L (BLOCKED :: l)
  | blockAfter : ∀ L l, 3 ≤ L → L ≤ cfg.gridSize →
      APLYields cfg (L - 1) l → APLYields cfg L (l ++ [BLOCKED])
  | between : ∀ L i f s, 3 ≤ L → L ≤ cfg.gridSize →
      3 ≤ i → i < cfg.gridSize - 3 →
      APLYields cfg i f → APLYields cfg (cfg.gridSize - (i + 1)) s →
      APLYields cfg L (f ++ BLOCKED :: s)

/-! ### `Prefilter` and the propagation loop -/

/-- Membership in `available[(x, y)]`: some line of `constraint[x]`
carries `c` at position `y` (`GridDictionary` cell filled by the
building pass of `Prefilter`). -/
def availContains (constraint : List (List ScoredLine)) (x y : Nat)
    (c : Char) : Bool :=
  (constraint.getD x []).any (fun sl => sl.Line.get? y == some c)

/-- The `Where` predicate of `Prefilter`: every character of the line
is available at its position. -/
def lineOK (constraint : List (List ScoredLine)) (y : Nat)
    (sl : ScoredLine) : Bool :=
  (List.range sl.Line.length).all (fun x =>
    availContains constraint x y (sl.Line.getD x BLOCKED))

/-- One tightening pass (`Prefilter`). -/
def prefilter (state : GridState) (dir : Direction) : GridState :=
  let toFilter := if dir = .Horizontal then state.Across else state.Down
  let constraint := if dir = .Horizontal then state.Down else state.Across
  if toFilter.any (fun r => r.length == 0) ||
      constraint.any (fun c => c.length == 0) then state
  else
    let filtered :=
      toFilter.mapIdx (fun y possibles => possibles.filter (lineOK constraint y))
    if dir = .Horizontal then { state with Across := filtered }
    else { state with Down := filtered }

/-- `Changed`: compares only the entry lengths of the two states. -/
def changed (before after : GridState) : Bool :=
  (List.range before.Down.length).any (fun i =>
    (before.Down.getD i []).length != (after.Down.getD i []).length ||
    (before.Across.getD i []).length != (after.Across.getD i []).length)

/-- The flip of the pass direction between iterations. -/
def flipDir : Direction → Direction
  | .Horizontal => .Vertical
  | .Vertical => .Horizontal

/-- The propagation loop of `AllPossibleGrids`: up to four `Prefilter`
passes with alternating direction; a pass after the first that changes
no entry lengths breaks out, discarding its (identical) output. -/
def propLoop : Nat → Bool → GridState → Direction → GridState
  | 0, _, root, _ => root
  | n + 1, notFirst, root, dir =>
    let ns := prefilter root dir
    if changed root ns = false ∧ notFirst = true then root
    else propLoop n true ns (flipDir dir)

/-- The full propagation step (`tries < 4`, starting horizontally). -/
def propagate (root : GridState) : GridState :=
  propLoop 4 false root .Horizontal

/-! ### The recursive search `AllPossibleGrids`

The iterator pair is modelled with explicit fuel (the C# recursion
terminates on well-formed inputs because every recursive call decides
one more entry; fuel makes the model total).  `Random.Shared.Next(2)`
draws are read from a stream `rng : Nat → Bool` at a counter threaded
through the search in evaluation order, reflecting that the C# code
draws from the process-wide shared source. -/

/-- Indices whose entry still has more than one option (`UndecidedDown`
/ `UndecidedAcross`). -/
def undecidedIdx (axis : List (List ScoredLine)) : List Nat :=
  (List.range axis.length).filter (fun i => 1 < (axis.getD i []).length)

/-- The symmetric-duplicate prune at the head of the per-direction
search: some index has singleton entries on both axes carrying the
same line. -/
def symmetricPrune (optionAxis oppositeAxis : List (List ScoredLine)) :
    Bool :=
  (List.range optionAxis.length).any (fun i =>
    (optionAxis.getD i []).length ≤ 1 &&
    (oppositeAxis.getD i []).length ≤ 1 &&
    ((optionAxis.getD i []).headD default).Line ==
      ((oppositeAxis.getD i []).headD default).Line)

/-- Filtering the opposite axis against a chosen `attempt` at `index`:
entry `i` keeps the options whose `index`-th character matches the
attempt's `i`-th character. -/
def filterOpposite (oppositeAxis : List (List ScoredLine))
    (attempt : ScoredLine) (index : Nat) : List (List ScoredLine) :=
  oppositeAxis.mapIdx (fun i opts =>
    if i < attempt.Line.length then
      opts.filter (fun o =>
        o.Line.getD index BLOCKED == attempt.Line.getD i BLOCKED)
    else opts)

/-- The `foreach (var attempt in options)` loop of the per-direction
search: decide the entry to each option in turn, filter the opposite
axis, and recurse when every opposite entry stays inhabited.  The
recursive re-entry into `AllPossibleGrids` is the parameter `sg`
(instantiated with the search at the remaining fuel), which keeps the
model structurally recursive and hence executable. -/
def goAttemptsF
    (sg : GridState → (Nat → Bool) → Nat → List FinalGrid × Nat)
    (optionAxis oppositeAxis : List (List ScoredLine)) (dir : Direction)
    (index : Nat) : List ScoredLine → (Nat → Bool) → Nat →
    List FinalGrid × Nat
  | [], _, k => ([], k)
  | attempt :: more, rng, k =>
    let attemptOpposite := filterOpposite oppositeAxis attempt index
    if attemptOpposite.all (fun opts => 0 < opts.length) then
      let optionFinal := optionAxis.mapIdx
        (fun idx regular => if idx = index then [attempt] else regular)
      let newRoot := if dir = .Horizontal then
          GridState.mk attemptOpposite optionFinal
        else GridState.mk optionFinal attemptOpposite
      let r1 := sg newRoot rng k
      let r2 := goAttemptsF sg optionAxis oppositeAxis dir index more rng
        r1.2
      (r1.1 ++ r2.1, r2.2)
    else
      goAttemptsF sg optionAxis oppositeAxis dir index more rng k

/-- The `foreach (int index in undecided)` loop: every undecided index
is explored in order; an index whose entry became a singleton is
skipped. -/
def goIndicesF
    (sg : GridState → (Nat → Bool) → Nat → List FinalGrid × Nat)
    (optionAxis oppositeAxis : List (List ScoredLine)) (dir : Direction) :
    List Nat → (Nat → Bool) → Nat → List FinalGrid × Nat
  | [], _, k => ([], k)
  | index :: rest, rng, k =>
    let options := optionAxis.getD index []
    if options.length == 1 then
      goIndicesF sg optionAxis oppositeAxis dir rest rng k
    else
      let r1 := goAttemptsF sg optionAxis oppositeAxis dir index options
        rng k
      let r2 := goIndicesF sg optionAxis oppositeAxis dir rest rng r1.2
      (r1.1 ++ r2.1, r2.2)

/-- `AllPossibleGrids(GridState, undecided, dir)`: the per-direction
search over the undecided indices (again with the recursive re-entry
abstracted as `sg`). -/
def searchDirF
    (sg : GridState → (Nat → Bool) → Nat → List FinalGrid × Nat)
    (root : GridState) (undecided : List Nat) (dir : Direction)
    (rng : Nat → Bool) (k : Nat) : List FinalGrid × Nat :=
  let optionAxis := if dir = .Horizontal then root.Across else root.Down
  let oppositeAxis := if dir = .Horizontal then root.Down else root.Across
  if symmetricPrune optionAxis oppositeAxis then ([], k)
  else goIndicesF sg optionAxis oppositeAxis dir undecided rng k

/-- `AllPossibleGrids(GridState)`: prune empty entries, propagate,
yield when fully decided, otherwise draw the direction parity from the
shared random source and explore exactly one direction. -/
def searchGrids : Nat → GridState → (Nat → Bool) → Nat →
    List FinalGrid × Nat
  | 0, _, _, k => ([], k)
  | fuel + 1, root, rng, k =>
    if root.Down.any (fun o => o.length == 0) ||
        root.Across.any (fun o => o.length == 0) then ([], k)
    else
      let root' := propagate root
      if root'.Down.any (fun o => o.length == 0) ||
          root'.Across.any (fun o => o.length == 0) then ([], k)
      else
        let undecD := undecidedIdx root'.Down
        let undecA := undecidedIdx root'.Across
        if undecD.isEmpty && undecA.isEmpty then
          ([⟨root'.Down.map (fun c => c.headD default),
             root'.Across.map (fun r => r.headD default)⟩], k)
        else
          let parity := rng k
          let firstDir := if parity then Direction.Vertical
            else Direction.Horizontal
          let firstUndec := if parity then undecD else undecA
          let secondDir := if parity then Direction.Horizontal
            else Direction.Vertical
          let secondUndec := if parity then undecA else undecD
          if firstUndec.isEmpty then
            searchDirF (searchGrids fuel) root' secondUndec secondDir rng
              (k + 1)
          else searchDirF (searchGrids fuel) root' firstUndec firstDir rng
            (k + 1)

/-- The per-direction search with the re-entry at the given fuel. -/
def searchDir (fuel : Nat) : GridState → List Nat → Direction →
    (Nat → Bool) → Nat → List FinalGrid × Nat :=
  searchDirF (searchGrids fuel)

/-- The undecided-index loop with the re-entry at the given fuel. -/
def goIndices (fuel : Nat) : List (List ScoredLine) →
    List (List ScoredLine) → Direction → List Nat → (Nat → Bool) →
    Nat → List FinalGrid × Nat :=
  goIndicesF (searchGrids fuel)

/-- The attempt loop with the re-entry at the given fuel. -/
def goAttempts (fuel : Nat) : List (List ScoredLine) →
    List (List ScoredLine) → Direction → Nat → List ScoredLine →
    (Nat → Bool) → Nat → List FinalGrid × Nat :=
  goAttemptsF (searchGrids fuel)

/-! ### Monotonicity of the propagator -/

/-- Entrywise containment of two axes: every line an entry admits is
admitted by the corresponding entry of the other axis. -/
def entrySub (a b : List (List ScoredLine)) : Prop :=
  ∀ i, a.getD i [] ⊆ b.getD i []

theorem entrySub_refl (a : List (List ScoredLine)) : entrySub a a :=
  fun _ => List.Subset.refl _

theorem entrySub_trans {a b c : List (List ScoredLine)}
    (h1 : entrySub a b) (h2 : entrySub b c) : entrySub a c :=
  fun i => List.Subset.trans (h1 i) (h2 i)

/-- Containment of grid states on both axes ("never looser"). -/
def stateSub (a b : GridState) : Prop :=
  entrySub a.Down b.Down ∧ entrySub a.Across b.Across

theorem stateSub_refl (a : GridState) : stateSub a a :=
  ⟨entrySub_refl _, entrySub_refl _⟩

theorem stateSub_trans {a b c : GridState}
    (h1 : stateSub a b) (h2 : stateSub b c) : stateSub a c :=
  ⟨entrySub_trans h1.1 h2.1, entrySub_trans h1.2 h2.2⟩

theorem mapIdx_filter_subset (P : Nat → ScoredLine → Bool) :
    ∀ (l : List (List ScoredLine)) (i : Nat),
      (l.mapIdx (fun y ps => ps.filter (P y))).getD i [] ⊆ l.getD i [] := by
  intro l
  induction l generalizing P with
  | nil => intro i; simp
  | cons x l ih =>
    intro i
    rw [List.mapIdx_cons]
    cases i with
    | zero =>
      show (x.filter (P 0)) ⊆ x
      intro a ha
      exact (List.mem_filter.mp ha).1
    | succ j =>
      show (l.mapIdx fun i a => (fun y ps => ps.filter (P y)) (i + 1) a).getD
        j [] ⊆ l.getD j []
      exact ih (fun y => P (y + 1)) j

/-- One `Prefilter` pass only removes candidate lines. -/
theorem prefilter_subset (s : GridState) (d : Direction) :
    stateSub (prefilter s d) s := by
  cases d with
  | Horizontal =>
    rw [prefilter]
    simp only [reduceIte]
    by_cases hearly : (s.Across.any (fun r => r.length == 0) ||
        s.Down.any (fun c => c.length == 0)) = true
    · rw [if_pos hearly]
      exact stateSub_refl s
    · rw [if_neg hearly]
      exact ⟨entrySub_refl _,
        fun i => mapIdx_filter_subset (fun y => lineOK s.Down y) s.Across i⟩
  | Vertical =>
    rw [prefilter]
    simp only [show (Direction.Vertical = Direction.Horizontal) = False from
      by simp, if_false]
    by_cases hearly : (s.Down.any (fun r => r.length == 0) ||
        s.Across.any (fun c => c.length == 0)) = true
    · rw [if_pos hearly]
      exact stateSub_refl s
    · rw [if_neg hearly]
      exact ⟨fun i => mapIdx_filter_subset
        (fun y => lineOK s.Across y) s.Down i, entrySub_refl _⟩

/-- The whole propagation loop only removes candidate lines. -/
theorem propLoop_subset :
    ∀ (n : Nat) (b : Bool) (root : GridState) (dir : Direction),
      stateSub (propLoop n b root dir) root := by
  intro n
  induction n with
  | zero => intro b root dir; exact stateSub_refl root
  | succ m ih =>
    intro b root dir
    rw [propLoop]
    by_cases hc : (changed root (prefilter root dir) = false ∧ b = true)
    · rw [if_pos hc]
      exact stateSub_refl root
    · rw [if_neg hc]
      exact stateSub_trans (ih true (prefilter root dir) (flipDir dir))
        (prefilter_subset root dir)

theorem propagate_subset (root : GridState) :
    stateSub (propagate root) root :=
  propLoop_subset 4 false root .Horizontal

/-! ### The per-direction search explores every undecided index -/

theorem goIndicesF_append
    (sg : GridState → (Nat → Bool) → Nat → List FinalGrid × Nat) :
    ∀ (u1 u2 : List Nat) (oa ob : List (List ScoredLine))
      (dir : Direction) (rng : Nat → Bool) (k : Nat),
      goIndicesF sg oa ob dir (u1 ++ u2) rng k =
        ((goIndicesF sg oa ob dir u1 rng k).1 ++
          (goIndicesF sg oa ob dir u2 rng
            (goIndicesF sg oa ob dir u1 rng k).2).1,
         (goIndicesF sg oa ob dir u2 rng
            (goIndicesF sg oa ob dir u1 rng k).2).2) := by
  intro u1
  induction u1 with
  | nil =>
    intro u2 oa ob dir rng k
    simp [goIndicesF]
  | cons index rest ih =>
    intro u2 oa ob dir rng k
    show goIndicesF sg oa ob dir (index :: (rest ++ u2)) rng k = _
    rw [goIndicesF]
    conv_rhs => rw [goIndicesF]
    by_cases hskip : ((oa.getD index []).length == 1) = true
    · rw [if_pos hskip, if_pos hskip]
      exact ih u2 oa ob dir rng k
    · rw [if_neg hskip, if_neg hskip]
      simp only
      rw [ih u2 oa ob dir rng _]
      simp [List.append_assoc]

/-- C5 (amended): the per-direction search explores every undecided
index, not only until the first one yields.  Splitting the
undecided-index list splits the yielded stream: the indices after any
prefix are explored regardless of what the prefix yielded (the original
claim's early return after the first yielding index would force the
second component of the split to contribute nothing). -/
theorem searchDir_append (fuel : Nat) (root : GridState) (u1 u2 : List Nat)
    (dir : Direction) (rng : Nat → Bool) (k : Nat) :
    searchDir fuel root (u1 ++ u2) dir rng k =
      ((searchDir fuel root u1 dir rng k).1 ++
        (searchDir fuel root u2 dir rng
          (searchDir fuel root u1 dir rng k).2).1,
       (searchDir fuel root u2 dir rng
          (searchDir fuel root u1 dir rng k).2).2) := by
  simp only [searchDir, searchDirF]
  by_cases hprune : symmetricPrune
      (if dir = .Horizontal then root.Across else root.Down)
      (if dir = .Horizontal then root.Down else root.Across) = true
  · simp only [if_pos hprune]
    simp
  · simp only [if_neg hprune]
    exact goIndicesF_append (searchGrids fuel) u1 u2 _ _ dir rng k

/-- C6 (amended): the yielded stream is a deterministic function of the
inputs and of the draw sequence of the process-wide shared random
source (Random.Shared) - not of a random source supplied to the
generator, which the search never consults. -/
theorem searchGrids_deterministic (fuel : Nat) (root : GridState)
    (r1 r2 : Nat → Bool) (k : Nat) (h : ∀ n, r1 n = r2 n) :
    searchGrids fuel root r1 k = searchGrids fuel root r2 k := by
  rw [funext h]

end XWGen

/-! ## The claims about the Go primitives, settled -/

namespace XWGo

/-- A concrete well-formed two-word `Words` value (the words cat and
dot, both obscure), used to instantiate the hypotheses of the claim
theorems at a computable input. -/
def pEx : PossibleLines := .words [[99, 97, 116], [100, 111, 116]] 2

/-- C2: for every well-formed PossibleLines p, character ch and index i
below p.NumLetters(), the lines of p.Filter(ch, i) are exactly the
lines of p whose i-th cell is ch, as a multiset. -/
theorem filter_iterate_multiset (p : PossibleLines) (h : WFb p = true)
    (ch : Int) (i : Nat) (hi : i < numLetters p) :
    (↑(lines (filter p ch i)) : Multiset ConcreteLine) =
      ↑((lines p).filter (fun l => cellAt l i == ch)) := by
  rw [filter_lines p h ch i hi]

theorem filter_iterate_multiset_witness :
    WFb pEx = true ∧ 0 < numLetters pEx ∧
    (↑(lines (filter pEx 116 0)) : Multiset ConcreteLine) =
      ↑((lines pEx).filter (fun l => cellAt l 0 == 116)) :=
  ⟨by decide, by decide,
   filter_iterate_multiset pEx (by decide) 116 0 (by decide)⟩

/-- C4: for every well-formed PossibleLines p with MaxPossibilities
above 1, MakeChoice returns a pair whose sides both have
MaxPossibilities at least 1 and whose iterations together form exactly
p's iteration as a multiset. -/
theorem makeChoice_multiset (p : PossibleLines) (h : WFb p = true)
    (hmp : 1 < maxPossibilities p) :
    ∃ a b, makeChoice p = some (a, b) ∧
      1 ≤ maxPossibilities a ∧ 1 ≤ maxPossibilities b ∧
      (↑(lines a) + ↑(lines b) : Multiset ConcreteLine) = ↑(lines p) := by
  obtain ⟨a, b, hmc, ha, hb, hperm⟩ := makeChoice_spec p h hmp
  refine ⟨a, b, hmc, ha, hb, ?_⟩
  rw [Multiset.coe_add]
  exact Multiset.coe_eq_coe.mpr hperm

theorem makeChoice_multiset_witness :
    WFb pEx = true ∧ 1 < maxPossibilities pEx ∧
    (∃ a b, makeChoice pEx = some (a, b) ∧
      1 ≤ maxPossibilities a ∧ 1 ≤ maxPossibilities b ∧
      (↑(lines a) + ↑(lines b) : Multiset ConcreteLine) = ↑(lines pEx)) :=
  ⟨by decide, by decide, makeChoice_multiset pEx (by decide) (by decide)⟩

theorem remove_idempotent_witness :
    WFb pEx = true ∧
    removeWordOptions (removeWordOptions pEx [[99, 97, 116]])
        [[99, 97, 116]] =
      removeWordOptions pEx [[99, 97, 116]] :=
  ⟨by decide, remove_idempotent pEx (by decide) [[99, 97, 116]]⟩

/-- C8 (amended): for every well-formed PossibleLines p and index i
below p.NumLetters(), DefinitelyBlockedAt(i) is true iff p yields at
least one line and every yielded line carries the blocked sentinel at
i.  The vacuous case is excluded: Impossible yields nothing yet its
DefinitelyBlockedAt returns false. -/
theorem definitelyBlockedAt_iff_all_blocked (p : PossibleLines)
    (h : WFb p = true) (i : Nat) (hi : i < numLetters p) :
    definitelyBlockedAt p i = true ↔
      (lines p ≠ [] ∧ ∀ l ∈ lines p, cellAt l i = kBlocked) := by
  by_cases himp : isImpossible p = true
  · obtain ⟨n, rfl⟩ : ∃ n, p = .impossible n := by
      cases p <;> first | exact ⟨_, rfl⟩ | simp [isImpossible] at himp
    simp [definitelyBlockedAt, lines]
  · have himp' : isImpossible p = false := by
      simpa using himp
    rw [dba_iff_nonimp p h himp' i hi]
    exact ⟨fun hall => ⟨lines_ne_nil p h himp', hall⟩, fun hx => hx.2⟩

theorem definitelyBlockedAt_iff_witness :
    WFb pEx = true ∧ 0 < numLetters pEx ∧
    (definitelyBlockedAt pEx 0 = true ↔
      (lines pEx ≠ [] ∧ ∀ l ∈ lines pEx, cellAt l 0 = kBlocked)) :=
  ⟨by decide, by decide,
   definitelyBlockedAt_iff_all_blocked pEx (by decide) 0 (by decide)⟩

/-- C8 counterexample to the original claim: Impossible 4 is
well-formed, index 0 lies below its NumLetters, it yields no lines - so
every yielded line is vacuously blocked at 0 - yet DefinitelyBlockedAt
returns false. -/
theorem definitelyBlockedAt_impossible_counterexample :
    WFb (PossibleLines.impossible 4) = true ∧
    0 < numLetters (PossibleLines.impossible 4) ∧
    (∀ l ∈ lines (PossibleLines.impossible 4), cellAt l 0 = kBlocked) ∧
    definitelyBlockedAt (PossibleLines.impossible 4) 0 = false := by
  refine ⟨rfl, by decide, ?_, rfl⟩
  intro l hl
  simp [lines] at hl

theorem charset_add_witness :
    (CharSet.addResult ⟨0, 0⟩ 97).2 = false ∧
    (CharSet.addResult ⟨0, 0⟩ 97).1.ContainsB 97 = true :=
  ⟨by decide, ((charset_add_ok ⟨0, 0⟩ 97).2.2 (by decide)).1⟩

/-- C10: the restriction operations Filter, FilterAny and
RemoveWordOptions preserve NumLetters on every well-formed
PossibleLines (a collapse to Impossible included, since the Impossible
built by the strict constructors records the original length). -/
theorem restrictions_preserve_numLetters (p : PossibleLines)
    (h : WFb p = true) (ch : Int) (cs : CharSet) (i : Nat)
    (hi : i < numLetters p) (ws : List Word) :
    numLetters (filter p ch i) = numLetters p ∧
    numLetters (filterAny p cs i) = numLetters p ∧
    numLetters (removeWordOptions p ws) = numLetters p :=
  ⟨(filter_preserves p h ch i hi).1, (filterAny_preserves p h cs i hi).1,
   (remove_preserves p h ws).1⟩

theorem restrictions_preserve_numLetters_witness :
    WFb pEx = true ∧ 0 < numLetters pEx ∧
    (numLetters (filter pEx 97 0) = numLetters pEx ∧
     numLetters (filterAny pEx ⟨0, 0⟩ 0) = numLetters pEx ∧
     numLetters (removeWordOptions pEx [[99, 97, 116]]) = numLetters pEx) :=
  ⟨by decide, by decide,
   restrictions_preserve_numLetters pEx (by decide) 97 ⟨0, 0⟩ 0
     (by decide) [[99, 97, 116]]⟩

end XWGo

/-! ## The claims about the C# generator, settled -/

namespace XWGen

/-- A dictionary configuration with grid size 7 and the single common
word cat at length 3 (nothing else). -/
def cfg7 : APLConfig :=
  ⟨7, fun L => if L = 3 then [['c', 'a', 't']] else [], fun _ => []⟩

/-- C1: refuted as coded.  With grid size 7, `AllPossibleLines(3)`
yields the seven-character line cat-BLOCKED-cat: the two-segment loop
is bounded by the grid size rather than by `maxLength`, so the
enumerator for segment length 3 emits a line of length 7, not 3. -/
theorem allPossibleLines_wrong_length :
    APLYields cfg7 3 (['c', 'a', 't'] ++ BLOCKED :: ['c', 'a', 't']) ∧
    (['c', 'a', 't'] ++ BLOCKED :: ['c', 'a', 't'] : List Char).length
      = 7 := by
  refine ⟨?_, by decide⟩
  have hcat : APLYields cfg7 3 ['c', 'a', 't'] :=
    APLYields.common 3 ['c', 'a', 't'] (by decide) (by decide) (by decide)
  exact APLYields.between 3 3 ['c', 'a', 't'] ['c', 'a', 't']
    (by decide) (by decide) (by decide) (by decide) hcat hcat

/-- C3: the propagator is monotone - one Prefilter pass and the full
propagation loop both only ever remove candidate lines from each axis
entry, so no entry gets looser. -/
theorem propagator_monotone (s : GridState) (d : Direction) :
    stateSub (prefilter s d) s ∧ stateSub (propagate s) s :=
  ⟨prefilter_subset s d, propagate_subset s⟩

/-- A three-letter candidate line with neutral scores. -/
def mkSL (s : List Char) : ScoredLine := ⟨s, 3, 3, 3⟩

/-- The all-a candidate. -/
def A3 : ScoredLine := mkSL ['a', 'a', 'a']

/-- The all-b candidate. -/
def B3 : ScoredLine := mkSL ['b', 'b', 'b']

/-- A 3-by-3 state in which every row and every column still has the
two options A3 and B3 (so every index of both axes is undecided). -/
def sEx : GridState :=
  ⟨[[A3, B3], [A3, B3], [A3, B3]], [[A3, B3], [A3, B3], [A3, B3]]⟩

/-- Like `sEx` but with the down options listed in the opposite order,
so that the two direction parities lead to different yields. -/
def sAsym : GridState :=
  ⟨[[B3, A3], [B3, A3], [B3, A3]], [[A3, B3], [A3, B3], [A3, B3]]⟩

/-- The all-zero draw stream. -/
def rF : Nat → Bool := fun _ => false

/-- The all-one draw stream. -/
def rT : Nat → Bool := fun _ => true

/-- The all-zero draw stream written as a comparison. -/
def rG : Nat → Bool := fun n => decide (n < 0)

set_option maxRecDepth 10000 in
/-- C5 counterexample to the claimed early return: in `sEx` the across
axis has undecided indices 0, 1, 2; recursing at the first of them
already yields grids, yet the search over all three indices yields a
strictly longer stream - it does not return after the first undecided
index produces a yield. -/
theorem searchDir_counterexample :
    undecidedIdx sEx.Across = [0] ++ [1, 2] ∧
    (searchDir 8 sEx [0] Direction.Horizontal rF 0).1 ≠ [] ∧
    (searchDir 8 sEx ([0] ++ [1, 2]) Direction.Horizontal rF 0).1 ≠
      (searchDir 8 sEx [0] Direction.Horizontal rF 0).1 := by
  refine ⟨by decide, by decide, by decide⟩

set_option maxRecDepth 10000 in
/-- C6 counterexample to seed-independence from the process-wide
source: with every generator input fixed, changing only the shared
source's draw sequence changes the yielded stream. -/
theorem searchGrids_shared_rng_counterexample :
    (searchGrids 9 sAsym rF 0).1 ≠ (searchGrids 9 sAsym rT 0).1 := by
  decide

set_option maxRecDepth 10000 in
theorem searchGrids_deterministic_witness :
    searchGrids 2 sEx rF 0 = searchGrids 2 sEx rG 0 :=
  searchGrids_deterministic 2 sEx rF rG 0 (fun n => by simp [rF, rG])

end XWGen
